import Mathlib

/-! # Event-driven reactor: bounded queue, idempotent worker pool, admission gate

A shallow embedding of `reactor.cpp` (Chapter 16, Section 1, Item 1) and of the
components the specification describes around it.

* `Reactor.Event`, `Reactor.BoundedQueue` (fields and constructor), the body of
  `workerLoop` and the initial state built by `main` are transcribed from the source.
* `BoundedQueue::push` and `BoundedQueue::pop` are only declared in the source; their
  bodies are modelled from the specification (section 4.1).
* The token-bucket admission gate has no code in the source; it is modelled from the
  specification (sections 3 and 4.2).

Machine integers: `Event.id` is a `uint64_t` that is only compared and stored, never
computed with, so it is a `Nat`; `Event.fd` is an `int`, again only stored.
-/

namespace Reactor

/-! ## Data model -/

/-- Event descriptor of the source (`struct Event`): the per-source id, the source file
descriptor and the payload bytes. -/
structure Event where
  id : Nat
  fd : Int
  payload : List Nat
deriving DecidableEq, Repr

/-- The class `BoundedQueue<T>` of the source: the stored elements `q` (front of the queue
first) and the capacity `cap`. The mutex and condition variable are not data; they make each
operation atomic, which the model expresses by applying operations one at a time. -/
structure BoundedQueue (α : Type) where
  q : List α
  cap : Nat
deriving DecidableEq, Repr

/-- The constructor `BoundedQueue(size_t c) : cap(c) {}`: an empty queue of capacity `c`. -/
def BoundedQueue.new {α : Type} (c : Nat) : BoundedQueue α :=
  { q := [], cap := c }

/-- Modelled from the spec: the body of `BoundedQueue::push(T v, int timeout_ms)`, which the
source only declares (`// block/timeout on full`). Section 4.1: push blocks the caller until
space is available or the timeout elapses and answers accepted or timedOut; it never drops
silently. As one atomic operation on the queue: with room the element is appended at the back
and the answer is `true`; on a full queue nothing is stored and the answer is `false`
(the wait ran out, whatever the finite `timeout_ms`). -/
def BoundedQueue.push {α : Type} (bq : BoundedQueue α) (v : α) (_timeout_ms : Int) :
    Bool × BoundedQueue α :=
  if bq.q.length < bq.cap then (true, { bq with q := bq.q ++ [v] }) else (false, bq)

/-- Modelled from the spec: the body of `BoundedQueue::pop(T &out)`, which the source only
declares (`// block until available`). Section 4.1: pop blocks until an item exists or the
timeout elapses and answers the event or timedOut. As one atomic operation: on a non-empty
queue the front element is removed and returned; on an empty queue there is nothing to
return (`none`: the caller keeps waiting or gets `false`). -/
def BoundedQueue.pop {α : Type} (bq : BoundedQueue α) : Option (α × BoundedQueue α) :=
  match bq.q with
  | [] => none
  | v :: rest => some (v, { bq with q := rest })

/-- One operation on a queue: a push of `v` with a timeout, or a pop. -/
inductive QOp (α : Type) where
  | push (v : α) (timeout_ms : Int)
  | pop
deriving DecidableEq, Repr

/-- The queue after one operation (the answer of the operation is dropped). -/
def BoundedQueue.applyOp {α : Type} (bq : BoundedQueue α) : QOp α → BoundedQueue α
  | QOp.push v t => (bq.push v t).2
  | QOp.pop =>
    match bq.pop with
    | none => bq
    | some (_, bq') => bq'

/-- The queue after a sequence of operations, applied in order. -/
def BoundedQueue.runOps {α : Type} (bq : BoundedQueue α) (ops : List (QOp α)) :
    BoundedQueue α :=
  ops.foldl BoundedQueue.applyOp bq

/-- Pushes the elements `vs` one after the other with the same timeout and no pop in between;
returns the answers of the pushes, in order, and the final queue. -/
def BoundedQueue.pushAll {α : Type} (bq : BoundedQueue α) (vs : List α) (timeout_ms : Int) :
    List Bool × BoundedQueue α :=
  match vs with
  | [] => ([], bq)
  | v :: rest =>
    let r := bq.push v timeout_ms
    let rs := BoundedQueue.pushAll r.2 rest timeout_ms
    (r.1 :: rs.1, rs.2)

/-! ## The worker loop, one worker -/

/-- The two external calls a worker makes, in the order they occur.
`processPayload ev ok` is the call `processPayload(ev.payload.data(), ev.payload.size())`
made for the popped event `ev`; `ok` is the outcome of the external handler, which the
source discards (the call is an expression statement).
`commitProgressAsync id` is the call `commitProgressAsync(ev.id)`. -/
inductive Call where
  | processPayload (ev : Event) (ok : Bool)
  | commitProgressAsync (id : Nat)
deriving DecidableEq, Repr

/-- What one worker can observe and change: the shared set `processed`
(`std::unordered_set<uint64_t>`) and the external calls made so far. -/
structure WorkerState where
  processed : Finset Nat
  calls : List Call

/-- One pass through the body of `while (run) { ... }` in `workerLoop`, given the result of
`in.pop(ev)` (`none`: pop returned false).

    if (!in.pop(ev)) continue;
    { lock_guard lg(pm);
      if (processed.count(ev.id)) continue; // dedupe
      processed.insert(ev.id); }
    processPayload(ev.payload.data(), ev.payload.size());
    commitProgressAsync(ev.id);

The external handler is the parameter `handler`; its outcome is recorded in the call and
used for nothing else, as in the source. -/
def iteration (handler : List Nat → Bool) (st : WorkerState) (popped : Option Event) :
    WorkerState :=
  match popped with
  | none => st
  | some ev =>
    if ev.id ∈ st.processed then st
    else
      { processed := insert ev.id st.processed,
        calls := st.calls ++
          [Call.processPayload ev (handler ev.payload), Call.commitProgressAsync ev.id] }

/-- The loop of `workerLoop` run by one worker over the finite sequence of pop results it
obtains while `run` is true. -/
def workerLoop (handler : List Nat → Bool) (st : WorkerState) (pops : List (Option Event)) :
    WorkerState :=
  pops.foldl (iteration handler) st

/-- The ids of the events a sequence of pop results hands to the worker, in order. -/
def poppedIds (pops : List (Option Event)) : List Nat :=
  pops.filterMap (fun p => p.map Event.id)

/-- Number of `processPayload` calls made for events whose id is `x`. -/
def handlerCount (x : Nat) (calls : List Call) : Nat :=
  calls.countP (fun c =>
    match c with
    | Call.processPayload ev _ => decide (ev.id = x)
    | Call.commitProgressAsync _ => false)

/-- Whether the handler was invoked for the event `e` itself (same id, source and payload). -/
def handledEvent (e : Event) (calls : List Call) : Bool :=
  calls.any (fun c =>
    match c with
    | Call.processPayload ev _ => decide (ev = e)
    | Call.commitProgressAsync _ => false)

/-- The ids passed to `commitProgressAsync`, in the order of the calls. -/
def commitIds (calls : List Call) : List Nat :=
  calls.filterMap (fun c =>
    match c with
    | Call.processPayload _ _ => none
    | Call.commitProgressAsync id => some id)

/-! ## The worker pool: `W` workers, one queue, one processed set -/

/-- Where a worker thread stands in `workerLoop`. Each constructor is the point before one
atomic step of the source:
`atWhile` before evaluating `run` in `while (run)`; `atPop` inside `in.pop(ev)`;
`atCheck ev` before the block guarded by `pm` (dedupe test and insert);
`atHandle ev` before `processPayload`; `atCommit ev` before `commitProgressAsync`;
`exited` after the loop. -/
inductive Pc where
  | atWhile
  | atPop
  | atCheck (ev : Event)
  | atHandle (ev : Event)
  | atCommit (ev : Event)
  | exited
deriving DecidableEq, Repr

/-- The shared state of `main` once the workers are started: the queue, the atomic flag
`run`, the set `processed`, the position of every worker, and the external calls made so
far. `pushed` and `popped` record the events accepted by the queue and the events handed to
workers, in order; no step reads them. -/
structure Sys where
  queue : BoundedQueue Event
  run : Bool
  processed : Finset Nat
  workers : List Pc
  calls : List Call
  pushed : List Event
  popped : List Event

/-- The state `main` builds: an empty queue of capacity `cap`, `run = true`, `W` workers
at the top of their loop, no call made. In the source `cap = 1024`, `W = 4` and the
processed set is empty. -/
def Sys.init (cap W : Nat) (processed0 : Finset Nat) : Sys :=
  { queue := BoundedQueue.new cap, run := true, processed := processed0,
    workers := List.replicate W Pc.atWhile, calls := [], pushed := [], popped := [] }

/-- One atomic step of the system.
`worker i`: worker `i` performs its next step. `popFalse i`: the pop worker `i` waits in
returns false (only on an empty queue). `push ev t`: the reactor thread calls
`queue.push(ev, t)`. `shutdown`: the flag `run` is set to false. -/
inductive Action where
  | worker (i : Nat)
  | popFalse (i : Nat)
  | push (ev : Event) (timeout_ms : Int)
  | shutdown
deriving DecidableEq, Repr

/-- The next atomic step of worker `i`, following `workerLoop` line by line. A worker that
waits in `pop` on an empty queue, a worker that has left the loop and an index that names no
worker leave the state as it is. -/
def Sys.workerStep (handler : List Nat → Bool) (s : Sys) (i : Nat) : Sys :=
  match s.workers[i]? with
  | none => s
  | some Pc.atWhile =>
    { s with workers := s.workers.set i (if s.run then Pc.atPop else Pc.exited) }
  | some Pc.atPop =>
    match s.queue.pop with
    | none => s
    | some (ev, queue') =>
      { s with queue := queue', workers := s.workers.set i (Pc.atCheck ev),
               popped := s.popped ++ [ev] }
  | some (Pc.atCheck ev) =>
    if ev.id ∈ s.processed then { s with workers := s.workers.set i Pc.atWhile }
    else { s with processed := insert ev.id s.processed,
                  workers := s.workers.set i (Pc.atHandle ev) }
  | some (Pc.atHandle ev) =>
    { s with calls := s.calls ++ [Call.processPayload ev (handler ev.payload)],
             workers := s.workers.set i (Pc.atCommit ev) }
  | some (Pc.atCommit ev) =>
    { s with calls := s.calls ++ [Call.commitProgressAsync ev.id],
             workers := s.workers.set i Pc.atWhile }
  | some Pc.exited => s

/-- The state after one action. An action that is not enabled leaves the state as it is. -/
def Sys.step (handler : List Nat → Bool) (s : Sys) : Action → Sys
  | Action.worker i => s.workerStep handler i
  | Action.popFalse i =>
    match s.workers[i]?, s.queue.q with
    | some Pc.atPop, [] => { s with workers := s.workers.set i Pc.atWhile }
    | _, _ => s
  | Action.push ev t =>
    let r := s.queue.push ev t
    { s with queue := r.2, pushed := if r.1 then s.pushed ++ [ev] else s.pushed }
  | Action.shutdown => { s with run := false }

/-- The state after a sequence of actions: one interleaving of the workers, the reactor
thread and the shutdown request. -/
def Sys.exec (handler : List Nat → Bool) (s : Sys) (acts : List Action) : Sys :=
  acts.foldl (Sys.step handler) s

/-- The worker holds an event of id `x` for which the dedupe test has not run yet. -/
def Pc.checks (x : Nat) : Pc → Bool
  | Pc.atCheck ev => decide (ev.id = x)
  | _ => false

/-- The worker has inserted id `x` and has not called the handler yet. -/
def Pc.handles (x : Nat) : Pc → Bool
  | Pc.atHandle ev => decide (ev.id = x)
  | _ => false

/-- The worker waits inside `pop`. -/
def Pc.pops : Pc → Bool
  | Pc.atPop => true
  | _ => false

/-- The ids a worker has popped and not yet committed or discarded (none or one). -/
def Pc.held : Pc → List Nat
  | Pc.atCheck ev => [ev.id]
  | Pc.atHandle ev => [ev.id]
  | Pc.atCommit ev => [ev.id]
  | _ => []

/-- Bookkeeping for one id `x` in a state of the pool: the handler calls made for `x`
plus the workers that have inserted `x` and are about to call the handler number one if `x`
is in the processed set and none otherwise; and as long as `x` is not in the processed set,
every accepted event of id `x` is still in the queue or held by a worker before its dedupe
test. -/
def Sys.DedupInv (x : Nat) (s : Sys) : Prop :=
  handlerCount x s.calls + s.workers.countP (Pc.handles x) =
      (if x ∈ s.processed then 1 else 0) ∧
  (x ∉ s.processed →
    (s.pushed.map Event.id).count x =
      (s.queue.q.map Event.id).count x + s.workers.countP (Pc.checks x))

/-- Upper bound on the atomic steps a worker still takes before it waits in `pop` again. -/
def Pc.cost : Pc → Nat
  | Pc.atCheck _ => 4
  | Pc.atHandle _ => 3
  | Pc.atCommit _ => 2
  | Pc.atWhile => 1
  | Pc.atPop => 0
  | Pc.exited => 0

/-- Upper bound on the worker steps still possible while nothing is pushed: five per queued
event (pop, test, handler, commit, loop test) plus what each worker has left of its pass. -/
def Sys.weight (s : Sys) : Nat :=
  5 * s.queue.q.length + (s.workers.map Pc.cost).sum

/-! ## The admission gate -/

/-- Modelled from the spec: the token bucket of the admission gate, which has no code in
the source. Section 3: state `{capacity, refillRate, currentTokens, lastRefillTime}`, with
the invariant `0 ≤ currentTokens ≤ capacity`. Tokens and seconds are rationals, since
tokens refill continuously. -/
structure AdmissionGate where
  capacity : ℚ
  refillRate : ℚ
  currentTokens : ℚ
  lastRefillTime : ℚ

/-- Modelled from the spec: a gate with a full bucket at time `now`. -/
def AdmissionGate.full (capacity refillRate now : ℚ) : AdmissionGate :=
  { capacity := capacity, refillRate := refillRate, currentTokens := capacity,
    lastRefillTime := now }

/-- Modelled from the spec: the lazy refill done at each admission check (section 3):
tokens accrue at `refillRate` per second of elapsed time, up to `capacity` (section 4.2). -/
def AdmissionGate.refill (g : AdmissionGate) (now : ℚ) : AdmissionGate :=
  { g with
    currentTokens := min g.capacity (g.currentTokens + g.refillRate * (now - g.lastRefillTime)),
    lastRefillTime := now }

/-- Modelled from the spec: `allow(cost) → bool` (section 4.2): refill, then on success
consume `cost` tokens and answer true; otherwise answer false and consume nothing. -/
def AdmissionGate.allow (g : AdmissionGate) (now cost : ℚ) : Bool × AdmissionGate :=
  let g' := g.refill now
  if cost ≤ g'.currentTokens then
    (true, { g' with currentTokens := g'.currentTokens - cost })
  else (false, g')

/-- Modelled from the spec: `k` calls `allow(cost)` issued at the same instant `now`;
returns the answers, in order, and the final gate. -/
def AdmissionGate.allowN (g : AdmissionGate) (now cost : ℚ) : Nat → List Bool × AdmissionGate
  | 0 => ([], g)
  | k + 1 =>
    let r := g.allow now cost
    let rs := AdmissionGate.allowN r.2 now cost k
    (r.1 :: rs.1, rs.2)

end Reactor

/-! # Sensor-fusion node: message buffers and the alignment loop (`fusionnode.cpp`) -/

namespace Fusion

/-- The time stamp `header.stamp` of a message: seconds and nanoseconds. The header type
belongs to the middleware (ROS 2 `builtin_interfaces/Time`) and is not in the source: `sec`
is an `int32` and `nanosec` a `uint32`. The fields hold the values as integers; the
arithmetic on them is 32-bit, see `Stamp.ms`. -/
structure Stamp where
  sec : Int
  nanosec : Nat
deriving DecidableEq, Repr

/-- The value an `unsigned int` (32 bits) holds after an arithmetic result, or after the
conversion of an `int`: the result reduced modulo `2^32` into `0 .. 2^32 - 1`. -/
def u32 (x : Int) : Int :=
  x % 4294967296

/-- The millisecond value both `pop_until` and `fusion_loop` compute from a stamp, the
expression `header.stamp.sec*1000 + header.stamp.nanosec/1000000`, in the 32-bit arithmetic
of its operand types: `sec*1000` is an `int` product, which wraps around for
`sec > 2147483`; `nanosec/1000000` is an `unsigned int` quotient; their sum is an
`unsigned int`, so the product is converted and the sum is reduced modulo `2^32`. The result
lies in `0 .. 2^32 - 1` and is then compared with, or stored in, an `int64_t` unchanged. -/
def Stamp.ms (s : Stamp) : Int :=
  u32 (u32 (s.sec * 1000) + ((s.nanosec % 4294967296 / 1000000 : Nat) : Int))

/-- A sensor message: its stamp and its content (`β` is the IMU reading, or the list of
radar detections). -/
structure Msg (β : Type) where
  stamp : Stamp
  body : β
deriving DecidableEq, Repr

/-- The class `MsgBuffer<T>`: the deque `buf_`, front first. The mutex makes every method
atomic. -/
structure MsgBuffer (β : Type) where
  buf_ : List (Msg β)
deriving DecidableEq, Repr

/-- The method `push`: `buf_.push_back(m)`. -/
def MsgBuffer.push {β : Type} (b : MsgBuffer β) (m : Msg β) : MsgBuffer β :=
  { buf_ := b.buf_ ++ [m] }

/-- The method `pop_until(t_ms)`, statement by statement:

    if(buf_.empty()) return nullptr;
    if(front stamp in ms > t_ms) return nullptr;
    auto m = buf_.front(); buf_.pop_front(); return m;

The stamp in ms is `Stamp.ms`, the 32-bit value of the source expression; `t_ms` is an
`int64_t`. Returns the message (`none` for `nullptr`) and the buffer afterwards. -/
def MsgBuffer.pop_until {β : Type} (b : MsgBuffer β) (t_ms : Int) :
    Option (Msg β) × MsgBuffer β :=
  match b.buf_ with
  | [] => (none, b)
  | m :: rest => if m.stamp.ms > t_ms then (none, b) else (some m, { buf_ := rest })

/-- The calls `fusion_loop` makes into the filter, in order. The filter arithmetic itself
(Eigen matrices of doubles) is not modelled. -/
inductive FilterCall (ι δ : Type) where
  | predict_with_imu (imu : Msg ι)
  | ekf_update (obj : δ)
deriving DecidableEq, Repr

/-- The state of `FusionNode` that `fusion_loop` reads and writes: the two buffers and the
filter calls made so far. `imu_pops` counts the calls of `imu_buf_.pop_until`; nothing
reads it. -/
structure FusionNode (ι δ : Type) where
  imu_buf_ : MsgBuffer ι
  radar_buf_ : MsgBuffer (List δ)
  calls : List (FilterCall ι δ)
  imu_pops : Nat
deriving DecidableEq, Repr

/-- The alignment loop of `fusion_loop`:

    while(true){
      auto imu_msg = imu_buf_.pop_until(radar_ts);
      if(!imu_msg) break;
      predict_with_imu(*imu_msg);
    }

`fuel` bounds the number of passes; `none` means the bound was reached before the `break`. -/
def FusionNode.align {ι δ : Type} : Nat → Int → FusionNode ι δ → Option (FusionNode ι δ)
  | 0, _, _ => none
  | fuel + 1, radar_ts, n =>
    match n.imu_buf_.pop_until radar_ts with
    | (none, _) => some { n with imu_pops := n.imu_pops + 1 }
    | (some imu_msg, buf') =>
      FusionNode.align fuel radar_ts
        { n with imu_buf_ := buf',
                 calls := n.calls ++ [FilterCall.predict_with_imu imu_msg],
                 imu_pops := n.imu_pops + 1 }

/-- The method `fusion_loop`, with the clock reading `now_ms` as input: pop a radar message
that is due, return if there is none; otherwise align the IMU buffer up to
`radar_ts = radar_msg->header.stamp.sec*1000 + radar_msg->header.stamp.nanosec/1000000`
(the 32-bit value `Stamp.ms`, stored in an `int64_t`) and call `ekf_update` for every
detection of the radar message. -/
def FusionNode.fusion_loop {ι δ : Type} (fuel : Nat) (now_ms : Int) (n : FusionNode ι δ) :
    Option (FusionNode ι δ) :=
  match n.radar_buf_.pop_until now_ms with
  | (none, _) => some n
  | (some radar_msg, radar') =>
    match FusionNode.align fuel radar_msg.stamp.ms { n with radar_buf_ := radar' } with
    | none => none
    | some n' => some { n' with calls := n'.calls ++ radar_msg.body.map FilterCall.ekf_update }

end Fusion

/-! # Periodic loops: the wake-time update (`rttask.cpp`, `detcontrol.c`, `isolatency.c`) -/

namespace Periodic

/-- The value a signed 64-bit integer (`long`, `time_t` on the LP64 targets of these
programs) holds after an arithmetic result `x`: `x` reduced modulo `2^64` into
`-2^63 .. 2^63 - 1`. -/
def wrap64 (x : Int) : Int :=
  (x + 9223372036854775808) % 18446744073709551616 - 9223372036854775808

/-- A `struct timespec`: `tv_sec` (`time_t`) and `tv_nsec` (`long`). -/
structure Timespec where
  tv_sec : Int
  tv_nsec : Int
deriving DecidableEq, Repr

/-- The instant a timespec denotes, in nanoseconds: `tv_sec*10^9 + tv_nsec`, as an exact
integer. -/
def Timespec.total_ns (t : Timespec) : Int :=
  t.tv_sec * 1000000000 + t.tv_nsec

/-- A normalised timespec: `0 <= tv_nsec < 10^9`. -/
def Timespec.normalised (t : Timespec) : Prop :=
  0 ≤ t.tv_nsec ∧ t.tv_nsec < 1000000000

/-- The constant `period_ns = 20'000'000` of `safety_loop` in `rttask.cpp` (20 ms). -/
def safety_loop_period_ns : Int := 20000000

/-- The constant `#define PERIOD_NS 1000000L` of `detcontrol.c` (1 kHz). -/
def PERIOD_NS : Int := 1000000

/-- The constant `period_ns = 1000000L` of `worker` in `isolatency.c` (1 ms). -/
def worker_period_ns : Int := 1000000

/-- The inner loop of `safety_loop`:
`while (next.tv_nsec >= 1'000'000'000) { next.tv_nsec -= 1'000'000'000; next.tv_sec++; }`.
`fuel` bounds the number of passes; `none` means the bound was reached with the condition
still true. -/
def safety_loop_carry : Nat → Timespec → Option Timespec
  | 0, next => if next.tv_nsec ≥ 1000000000 then none else some next
  | fuel + 1, next =>
    if next.tv_nsec ≥ 1000000000 then
      safety_loop_carry fuel
        { tv_nsec := wrap64 (next.tv_nsec - 1000000000), tv_sec := wrap64 (next.tv_sec + 1) }
    else some next

/-- The wake-time update of `safety_loop` (`rttask.cpp`): `next.tv_nsec += period_ns;`
followed by the carry loop. -/
def safety_loop_next (fuel : Nat) (next : Timespec) : Option Timespec :=
  safety_loop_carry fuel
    { next with tv_nsec := wrap64 (next.tv_nsec + safety_loop_period_ns) }

/-- The wake-time update of `control_thread` (`detcontrol.c`):

    ts.tv_nsec += PERIOD_NS;
    if (ts.tv_nsec >= 1000000000L) { ts.tv_sec++; ts.tv_nsec -= 1000000000L; } -/
def control_thread_next (ts : Timespec) : Timespec :=
  if wrap64 (ts.tv_nsec + PERIOD_NS) ≥ 1000000000 then
    { tv_sec := wrap64 (ts.tv_sec + 1),
      tv_nsec := wrap64 (wrap64 (ts.tv_nsec + PERIOD_NS) - 1000000000) }
  else { ts with tv_nsec := wrap64 (ts.tv_nsec + PERIOD_NS) }

/-- The wake-time update of `worker` (`isolatency.c`):

    next.tv_nsec += period_ns;
    if(next.tv_nsec >= 1000000000L){ next.tv_sec++; next.tv_nsec -= 1000000000L; } -/
def worker_next (next : Timespec) : Timespec :=
  if wrap64 (next.tv_nsec + worker_period_ns) ≥ 1000000000 then
    { tv_sec := wrap64 (next.tv_sec + 1),
      tv_nsec := wrap64 (wrap64 (next.tv_nsec + worker_period_ns) - 1000000000) }
  else { next with tv_nsec := wrap64 (next.tv_nsec + worker_period_ns) }

end Periodic

/-! # The type-of-service byte of the UDP senders (`udpsock.c`, `detcontrol.c`) -/

namespace Qos

/-- The value `int tos = 0x2E;` that `create_latency_udp` passes to
`setsockopt(fd, IPPROTO_IP, IP_TOS, ...)`; its comment reads
"DSCP EF + small ECN capable marking". -/
def create_latency_udp_tos : Nat := 0x2E

/-- The value `int tos = 0x2E;` that `send_priority_udp` passes to
`setsockopt(sock, IPPROTO_IP, IP_TOS, ...)`; its comment reads "DSCP for low-latency". -/
def send_priority_udp_tos : Nat := 0x2E

/-- The upper six bits of a type-of-service byte: the DSCP field. -/
def dscpField (tos : Nat) : Nat := (tos % 256) >>> 2

/-- The lower two bits of a type-of-service byte: the ECN field. -/
def ecnField (tos : Nat) : Nat := tos &&& 3

/-- The Expedited Forwarding codepoint, 46 (binary 101110). -/
def DSCP_EF : Nat := 46

end Qos

namespace Reactor

/-! ## Bounded queue -/

theorem BoundedQueue.push_cap {α : Type} (bq : BoundedQueue α) (v : α) (t : Int) :
    (bq.push v t).2.cap = bq.cap := by
  unfold BoundedQueue.push
  split <;> rfl

theorem BoundedQueue.push_length_le {α : Type} (bq : BoundedQueue α) (v : α) (t : Int)
    (h : bq.q.length ≤ bq.cap) : (bq.push v t).2.q.length ≤ bq.cap := by
  unfold BoundedQueue.push
  split
  · simp only [List.length_append, List.length_singleton]; omega
  · exact h

theorem BoundedQueue.push_full {α : Type} (bq : BoundedQueue α) (v : α) (t : Int)
    (h : bq.q.length = bq.cap) : bq.push v t = (false, bq) := by
  unfold BoundedQueue.push
  rw [if_neg (by omega)]

theorem BoundedQueue.applyOp_cap {α : Type} (bq : BoundedQueue α) (op : QOp α) :
    (bq.applyOp op).cap = bq.cap := by
  cases op with
  | push v t => exact BoundedQueue.push_cap bq v t
  | pop =>
    unfold BoundedQueue.applyOp BoundedQueue.pop
    cases bq.q <;> rfl

theorem BoundedQueue.applyOp_length_le {α : Type} (bq : BoundedQueue α) (op : QOp α)
    (h : bq.q.length ≤ bq.cap) : (bq.applyOp op).q.length ≤ bq.cap := by
  cases op with
  | push v t => exact BoundedQueue.push_length_le bq v t h
  | pop =>
    unfold BoundedQueue.applyOp BoundedQueue.pop
    cases hq : bq.q with
    | nil => simp [hq]
    | cons a rest =>
      rw [hq] at h
      simp only [List.length_cons] at h ⊢
      omega

theorem BoundedQueue.runOps_bounded {α : Type} (ops : List (QOp α)) (bq : BoundedQueue α)
    (h : bq.q.length ≤ bq.cap) :
    (bq.runOps ops).cap = bq.cap ∧ (bq.runOps ops).q.length ≤ bq.cap := by
  induction ops generalizing bq with
  | nil => exact ⟨rfl, h⟩
  | cons op rest ih =>
    have hc := BoundedQueue.applyOp_cap bq op
    have hl := BoundedQueue.applyOp_length_le bq op h
    have := ih (bq.applyOp op) (by rw [hc]; exact hl)
    simpa [BoundedQueue.runOps, hc] using this

/-- C6. For every capacity `Q` and every sequence of push and pop operations applied to the
queue `BoundedQueue(Q)` builds, the number of stored elements stays between 0 and `Q`;
and a push on the resulting queue, when it already holds `Q` elements, answers false and
stores nothing. -/
theorem boundedQueue_length_within_capacity {α : Type} (Q : Nat) (ops : List (QOp α)) :
    0 ≤ ((BoundedQueue.new Q : BoundedQueue α).runOps ops).q.length ∧
    ((BoundedQueue.new Q : BoundedQueue α).runOps ops).q.length ≤ Q ∧
    ∀ (v : α) (t : Int), ((BoundedQueue.new Q : BoundedQueue α).runOps ops).q.length = Q →
      ((BoundedQueue.new Q : BoundedQueue α).runOps ops).push v t =
        (false, (BoundedQueue.new Q : BoundedQueue α).runOps ops) := by
  have h := BoundedQueue.runOps_bounded ops (BoundedQueue.new Q : BoundedQueue α)
    (Nat.zero_le _)
  refine ⟨Nat.zero_le _, h.2, ?_⟩
  intro v t hfull
  exact BoundedQueue.push_full _ v t (by rw [h.1]; exact hfull)

/-- C6, at a concrete input: capacity 2, three pushes and a pop leave at most two elements,
and a further push on the queue filled again is refused. -/
theorem boundedQueue_length_within_capacity_witness :
    ((BoundedQueue.new 2 : BoundedQueue Nat).runOps
        [QOp.push 10 0, QOp.push 11 0, QOp.push 12 0, QOp.pop, QOp.push 13 0]).q.length = 2 ∧
    ((BoundedQueue.new 2 : BoundedQueue Nat).runOps
        [QOp.push 10 0, QOp.push 11 0, QOp.push 12 0, QOp.pop, QOp.push 13 0]).push 14 5 =
      (false, (BoundedQueue.new 2 : BoundedQueue Nat).runOps
        [QOp.push 10 0, QOp.push 11 0, QOp.push 12 0, QOp.pop, QOp.push 13 0]) :=
  ⟨by decide,
   (boundedQueue_length_within_capacity 2
      [QOp.push 10 0, QOp.push 11 0, QOp.push 12 0, QOp.pop, QOp.push 13 0]).2.2 14 5
      (by decide)⟩

theorem BoundedQueue.pushAll_spec {α : Type} (vs : List α) (t : Int) (bq : BoundedQueue α)
    (h : bq.q.length ≤ bq.cap) :
    (bq.pushAll vs t).1 =
        List.replicate (min vs.length (bq.cap - bq.q.length)) true ++
        List.replicate (vs.length - min vs.length (bq.cap - bq.q.length)) false ∧
    (bq.pushAll vs t).2.q = bq.q ++ vs.take (bq.cap - bq.q.length) := by
  induction vs generalizing bq with
  | nil => simp [BoundedQueue.pushAll]
  | cons v rest ih =>
    unfold BoundedQueue.pushAll
    by_cases hlt : bq.q.length < bq.cap
    · have hp : bq.push v t = (true, { bq with q := bq.q ++ [v] }) := by
        unfold BoundedQueue.push; rw [if_pos hlt]
      have := ih { bq with q := bq.q ++ [v] }
        (by simp only [List.length_append, List.length_singleton]; omega)
      simp only [hp, List.length_append, List.length_singleton, List.length_cons,
        List.length_nil, Nat.zero_add] at this ⊢
      obtain ⟨k, hk⟩ : ∃ k, bq.cap - bq.q.length = k + 1 := ⟨bq.cap - bq.q.length - 1, by omega⟩
      have hk' : bq.cap - (bq.q.length + 1) = k := by omega
      rw [hk'] at this
      rw [hk, this.1, this.2]
      constructor
      · rw [Nat.add_min_add_right, List.replicate_succ, Nat.add_sub_add_right]
        rfl
      · simp
    · have hp : bq.push v t = (false, bq) := by
        unfold BoundedQueue.push; rw [if_neg hlt]
      have := ih bq h
      have h0 : bq.cap - bq.q.length = 0 := by omega
      simp only [hp, h0, List.length_cons] at this ⊢
      rw [this.1, this.2]
      simp [List.replicate_succ]

/-- C7. With no pop in between, the pushes of `vs` with timeout 0 onto the empty queue of
capacity `Q` answer true for exactly the first `min n Q` of the `n` pushes and false for the
rest, and the queue then holds the accepted elements, the first `Q` of `vs`, in push order. -/
theorem push_timeout_zero_accepts_up_to_capacity {α : Type} (Q : Nat) (vs : List α) :
    ((BoundedQueue.new Q : BoundedQueue α).pushAll vs 0).1 =
        List.replicate (min vs.length Q) true ++
        List.replicate (vs.length - min vs.length Q) false ∧
    ((BoundedQueue.new Q : BoundedQueue α).pushAll vs 0).2.q = vs.take Q := by
  have h := BoundedQueue.pushAll_spec vs 0 (BoundedQueue.new Q : BoundedQueue α)
    (Nat.zero_le _)
  simpa [BoundedQueue.new] using h

/-! ## Admission gate -/

theorem AdmissionGate.allow_same_instant (g : AdmissionGate) (cost : ℚ)
    (h : g.currentTokens ≤ g.capacity) :
    g.allow g.lastRefillTime cost =
      if cost ≤ g.currentTokens then (true, { g with currentTokens := g.currentTokens - cost })
      else (false, g) := by
  have hr : g.refill g.lastRefillTime = g := by
    unfold AdmissionGate.refill
    simp [min_eq_right h]
  unfold AdmissionGate.allow
  simp only [hr]

theorem AdmissionGate.allowN_same_instant (k : Nat) (g : AdmissionGate) (C j : Nat)
    (hcap : g.capacity = (C : ℚ)) (htok : g.currentTokens = (j : ℚ)) (hj : j ≤ C) :
    (g.allowN g.lastRefillTime 1 k).1 =
        List.replicate (min k j) true ++ List.replicate (k - min k j) false ∧
    (g.allowN g.lastRefillTime 1 k).2.currentTokens = ((j - min k j : Nat) : ℚ) ∧
    (g.allowN g.lastRefillTime 1 k).2.capacity = (C : ℚ) := by
  induction k generalizing g j with
  | zero => simp [AdmissionGate.allowN, htok, hcap]
  | succ k ih =>
    have hle : g.currentTokens ≤ g.capacity := by
      rw [hcap, htok]; exact_mod_cast hj
    unfold AdmissionGate.allowN
    rw [AdmissionGate.allow_same_instant g 1 hle]
    cases j with
    | zero =>
      have hno : ¬ (1 : ℚ) ≤ g.currentTokens := by rw [htok]; norm_num
      rw [if_neg hno]
      have := ih g 0 hcap htok (Nat.zero_le _)
      simp only [Nat.min_zero, Nat.sub_zero, List.replicate_zero, List.nil_append] at this ⊢
      rw [this.1, this.2.1, this.2.2]
      simp [List.replicate_succ]
    | succ j =>
      have hyes : (1 : ℚ) ≤ g.currentTokens := by rw [htok]; push_cast; linarith [Nat.cast_nonneg (α := ℚ) j]
      rw [if_pos hyes]
      have := ih { g with currentTokens := g.currentTokens - 1 } j hcap
        (by simp only [htok]; push_cast; ring) (by omega)
      simp only at this ⊢
      rw [this.1, this.2.1, this.2.2]
      refine ⟨?_, ?_, rfl⟩
      · rw [Nat.add_min_add_right, List.replicate_succ, Nat.add_sub_add_right]
        rfl
      · rw [Nat.add_min_add_right, Nat.add_sub_add_right]

/-- C9. For a gate whose bucket is full at capacity `C`, `k` calls `allow(1)` issued at the
instant of the last refill answer true for exactly the first `min k C` calls and false for
the rest, whatever the refill rate; and after any number `k` of such calls the token count
is `C - min k C`, within `0..C`. -/
theorem allow_full_bucket_no_elapsed_time (C : Nat) (refillRate now : ℚ) (k : Nat) :
    ((AdmissionGate.full C refillRate now).allowN now 1 k).1 =
        List.replicate (min k C) true ++ List.replicate (k - min k C) false ∧
    ((AdmissionGate.full C refillRate now).allowN now 1 k).2.currentTokens =
        ((C - min k C : Nat) : ℚ) ∧
    0 ≤ ((AdmissionGate.full C refillRate now).allowN now 1 k).2.currentTokens ∧
    ((AdmissionGate.full C refillRate now).allowN now 1 k).2.currentTokens ≤
      ((AdmissionGate.full C refillRate now).allowN now 1 k).2.capacity := by
  have h := AdmissionGate.allowN_same_instant k (AdmissionGate.full C refillRate now) C C
    rfl rfl (Nat.le_refl _)
  have hnow : (AdmissionGate.full C refillRate now).lastRefillTime = now := rfl
  rw [hnow] at h
  refine ⟨h.1, h.2.1, ?_, ?_⟩
  · rw [h.2.1]; exact Nat.cast_nonneg _
  · rw [h.2.1, h.2.2]; exact_mod_cast Nat.sub_le _ _

/-! ## One worker: deduplication -/

theorem iteration_dup (handler : List Nat → Bool) (st : WorkerState) (ev : Event)
    (h : ev.id ∈ st.processed) : iteration handler st (some ev) = st := by
  simp [iteration, h]

theorem iteration_fresh (handler : List Nat → Bool) (st : WorkerState) (ev : Event)
    (h : ev.id ∉ st.processed) :
    iteration handler st (some ev) =
      { processed := insert ev.id st.processed,
        calls := st.calls ++
          [Call.processPayload ev (handler ev.payload), Call.commitProgressAsync ev.id] } := by
  simp [iteration, h]

theorem iteration_processed_subset (handler : List Nat → Bool) (st : WorkerState)
    (popped : Option Event) : st.processed ⊆ (iteration handler st popped).processed := by
  cases popped with
  | none => exact Finset.Subset.refl _
  | some ev =>
    by_cases h : ev.id ∈ st.processed
    · rw [iteration_dup handler st ev h]
    · rw [iteration_fresh handler st ev h]
      exact Finset.subset_insert _ _

theorem iteration_mem_processed (handler : List Nat → Bool) (st : WorkerState) (ev : Event) :
    ev.id ∈ (iteration handler st (some ev)).processed := by
  by_cases h : ev.id ∈ st.processed
  · rw [iteration_dup handler st ev h]; exact h
  · rw [iteration_fresh handler st ev h]
    exact Finset.mem_insert_self _ _

theorem workerLoop_cons (handler : List Nat → Bool) (st : WorkerState) (p : Option Event)
    (pops : List (Option Event)) :
    workerLoop handler st (p :: pops) = workerLoop handler (iteration handler st p) pops :=
  rfl

theorem workerLoop_processed_subset (handler : List Nat → Bool) (pops : List (Option Event))
    (st : WorkerState) : st.processed ⊆ (workerLoop handler st pops).processed := by
  induction pops generalizing st with
  | nil => exact Finset.Subset.refl _
  | cons p rest ih =>
    rw [workerLoop_cons]
    exact (iteration_processed_subset handler st p).trans (ih _)

theorem handlerCount_append (x : Nat) (a b : List Call) :
    handlerCount x (a ++ b) = handlerCount x a + handlerCount x b := by
  simp [handlerCount, List.countP_append]

theorem handlerCount_processPayload (x : Nat) (ev : Event) (ok : Bool) :
    handlerCount x [Call.processPayload ev ok] = if ev.id = x then 1 else 0 := by
  by_cases h : ev.id = x <;> simp [handlerCount, h]

theorem handlerCount_commit (x id : Nat) :
    handlerCount x [Call.commitProgressAsync id] = 0 := by
  simp [handlerCount]

theorem workerLoop_handlerCount (handler : List Nat → Bool) (x : Nat)
    (pops : List (Option Event)) (st : WorkerState) :
    handlerCount x (workerLoop handler st pops).calls =
      handlerCount x st.calls +
        (if x ∉ st.processed ∧ x ∈ poppedIds pops then 1 else 0) := by
  induction pops generalizing st with
  | nil => simp [workerLoop, poppedIds]
  | cons p rest ih =>
    rw [workerLoop_cons, ih]
    cases p with
    | none => simp [iteration, poppedIds]
    | some ev =>
      have hids : poppedIds (some ev :: rest) = ev.id :: poppedIds rest := by
        simp [poppedIds]
      rw [hids]
      by_cases h : ev.id ∈ st.processed
      · rw [iteration_dup handler st ev h]
        by_cases hx : x ∈ st.processed
        · simp [hx]
        · have hne : x ≠ ev.id := fun e => hx (e ▸ h)
          simp [hx, hne]
      · rw [iteration_fresh handler st ev h]
        simp only [handlerCount_append, Finset.mem_insert, List.mem_cons]
        rw [show [Call.processPayload ev (handler ev.payload), Call.commitProgressAsync ev.id]
            = [Call.processPayload ev (handler ev.payload)] ++ [Call.commitProgressAsync ev.id]
            from rfl, handlerCount_append, handlerCount_processPayload, handlerCount_commit]
        by_cases hx : x = ev.id
        · subst hx
          simp [h]
        · have hx' : ¬ ev.id = x := fun e => hx e.symm
          by_cases hp : x ∈ st.processed <;> simp [hx, hx', hp]

/-- C1. For every handler, every initial processed set and every finite sequence of pop
results of one worker: an event whose id is already in the processed set when it is popped
leaves the worker state as it is (no `processPayload`, no commit); the handler is invoked at
most once for each id; exactly once for an id that occurs in the sequence and was not in the
initial set; and never for an id of the initial set. -/
theorem workerLoop_handler_once_per_id (handler : List Nat → Bool) (processed0 : Finset Nat)
    (pops : List (Option Event)) :
    (∀ (st : WorkerState) (ev : Event), ev.id ∈ st.processed →
        iteration handler st (some ev) = st) ∧
    (∀ x, handlerCount x
        (workerLoop handler { processed := processed0, calls := [] } pops).calls ≤ 1) ∧
    (∀ x, x ∉ processed0 → x ∈ poppedIds pops → handlerCount x
        (workerLoop handler { processed := processed0, calls := [] } pops).calls = 1) ∧
    (∀ x, x ∈ processed0 → handlerCount x
        (workerLoop handler { processed := processed0, calls := [] } pops).calls = 0) := by
  have key := fun x => workerLoop_handlerCount handler x pops
    { processed := processed0, calls := [] }
  refine ⟨fun st ev h => iteration_dup handler st ev h, ?_, ?_, ?_⟩
  · intro x
    rw [key x]
    simp only [handlerCount, List.countP_nil, Nat.zero_add]
    split <;> omega
  · intro x h0 hx
    rw [key x]
    simp [handlerCount, h0, hx]
  · intro x h0
    rw [key x]
    simp [handlerCount, h0]

/-- C1, at a concrete input: id 7 is popped three times and id 9 once, with 9 already in the
processed set; the handler runs once for 7 and not at all for 9. -/
theorem workerLoop_handler_once_per_id_witness :
    handlerCount 7 (workerLoop (fun _ => true) { processed := {9}, calls := [] }
      [some ⟨7, 3, [1]⟩, none, some ⟨9, 3, [2]⟩, some ⟨7, 3, [1]⟩, some ⟨7, 5, []⟩]).calls = 1 ∧
    handlerCount 9 (workerLoop (fun _ => true) { processed := {9}, calls := [] }
      [some ⟨7, 3, [1]⟩, none, some ⟨9, 3, [2]⟩, some ⟨7, 3, [1]⟩, some ⟨7, 5, []⟩]).calls = 0 :=
  ⟨(workerLoop_handler_once_per_id (fun _ => true) {9}
      [some ⟨7, 3, [1]⟩, none, some ⟨9, 3, [2]⟩, some ⟨7, 3, [1]⟩, some ⟨7, 5, []⟩]).2.2.1 7
      (by decide) (by decide),
   (workerLoop_handler_once_per_id (fun _ => true) {9}
      [some ⟨7, 3, [1]⟩, none, some ⟨9, 3, [2]⟩, some ⟨7, 3, [1]⟩, some ⟨7, 5, []⟩]).2.2.2 9
      (by decide)⟩

/-- C3, refuted as stated. Two events with the same id 7 from different sources
(descriptors 3 and 4) are popped by a worker whose processed set is empty: the handler is
invoked for the first only, and the second is discarded as its duplicate. -/
theorem dedup_same_id_other_source_discarded :
    (⟨7, 3, [1]⟩ : Event).id = (⟨7, 4, [2]⟩ : Event).id ∧
    (⟨7, 3, [1]⟩ : Event).fd ≠ (⟨7, 4, [2]⟩ : Event).fd ∧
    (workerLoop (fun _ => true) { processed := ∅, calls := [] }
        [some ⟨7, 3, [1]⟩, some ⟨7, 4, [2]⟩]).calls =
      [Call.processPayload ⟨7, 3, [1]⟩ true, Call.commitProgressAsync 7] ∧
    handledEvent ⟨7, 4, [2]⟩ (workerLoop (fun _ => true) { processed := ∅, calls := [] }
        [some ⟨7, 3, [1]⟩, some ⟨7, 4, [2]⟩]).calls = false := by
  decide

/-- C3, amended. Deduplication is keyed on the id alone. Once a worker has popped an event
`e1`, an event `e2` with the same id that it pops later, whatever the two source
descriptors and whatever it popped in between, is discarded: the worker state is left as it
is. Two events whose ids differ and are not in the processed set, popped one after the
other, are both handled. -/
theorem dedup_keyed_on_id_alone (handler : List Nat → Bool) (st : WorkerState)
    (e1 e2 : Event) (between : List (Option Event)) :
    (e1.id = e2.id →
      iteration handler (workerLoop handler st (some e1 :: between)) (some e2) =
        workerLoop handler st (some e1 :: between)) ∧
    (e1.id ≠ e2.id → e1.id ∉ st.processed → e2.id ∉ st.processed →
      (workerLoop handler st [some e1, some e2]).calls =
        st.calls ++ [Call.processPayload e1 (handler e1.payload), Call.commitProgressAsync e1.id,
          Call.processPayload e2 (handler e2.payload), Call.commitProgressAsync e2.id]) := by
  constructor
  · intro hid
    apply iteration_dup
    rw [workerLoop_cons, ← hid]
    exact workerLoop_processed_subset handler between _ (iteration_mem_processed handler st e1)
  · intro hne h1 h2
    have h2' : e2.id ∉ insert e1.id st.processed := by
      simp [Finset.mem_insert, h2, Ne.symm hne]
    simp only [workerLoop, List.foldl_cons, List.foldl_nil]
    rw [iteration_fresh handler st e1 h1, iteration_fresh handler _ e2 h2']
    simp

/-- C3 amended, at a concrete input: ids 7 and 7 from descriptors 3 and 4 with an event of
id 8 in between, and ids 7 and 8 popped by a worker with an empty processed set. -/
theorem dedup_keyed_on_id_alone_witness :
    iteration (fun _ => true)
        (workerLoop (fun _ => true) { processed := ∅, calls := [] }
          [some ⟨7, 3, [1]⟩, some ⟨8, 3, []⟩]) (some ⟨7, 4, [2]⟩) =
      workerLoop (fun _ => true) { processed := ∅, calls := [] }
        [some ⟨7, 3, [1]⟩, some ⟨8, 3, []⟩] ∧
    (workerLoop (fun _ => true) { processed := ∅, calls := [] }
        [some ⟨7, 3, [1]⟩, some ⟨8, 3, []⟩]).calls =
      [] ++ [Call.processPayload ⟨7, 3, [1]⟩ true, Call.commitProgressAsync 7,
        Call.processPayload ⟨8, 3, []⟩ true, Call.commitProgressAsync 8] :=
  ⟨(dedup_keyed_on_id_alone (fun _ => true) { processed := ∅, calls := [] }
      ⟨7, 3, [1]⟩ ⟨7, 4, [2]⟩ [some ⟨8, 3, []⟩]).1 rfl,
   (dedup_keyed_on_id_alone (fun _ => true) { processed := ∅, calls := [] }
      ⟨7, 3, [1]⟩ ⟨8, 3, []⟩ []).2 (by decide) (by decide) (by decide)⟩

/-- C4, refuted as stated. The handler fails on every payload; after the iteration that pops
the event of id 7 the id is in the processed set all the same, and when the event is
delivered again the worker discards it: one failed handler call in all. -/
theorem failed_handler_id_still_processed :
    (7 : Nat) ∈ (iteration (fun _ => false) { processed := ∅, calls := [] }
        (some ⟨7, 3, [1]⟩)).processed ∧
    (workerLoop (fun _ => false) { processed := ∅, calls := [] }
        [some ⟨7, 3, [1]⟩, some ⟨7, 3, [1]⟩]).calls =
      [Call.processPayload ⟨7, 3, [1]⟩ false, Call.commitProgressAsync 7] := by
  decide

/-- C4, amended. Whatever the outcome of the handler invocation, failure included, the id of
a popped event is in the processed set after the worker iteration (it is inserted before the
handler is called and the outcome is discarded), so a later redelivery of an event with that
id, after any further pops, is discarded as a duplicate: no handler call, no commit. -/
theorem handler_outcome_never_unmarks (handler : List Nat → Bool) (st : WorkerState)
    (ev : Event) (later : List (Option Event)) :
    ev.id ∈ (iteration handler st (some ev)).processed ∧
    iteration handler (workerLoop handler (iteration handler st (some ev)) later) (some ev) =
      workerLoop handler (iteration handler st (some ev)) later := by
  refine ⟨iteration_mem_processed handler st ev, ?_⟩
  apply iteration_dup
  exact workerLoop_processed_subset handler later _ (iteration_mem_processed handler st ev)

/-- C10. Every worker iteration leaves the processed set a superset of what it was; when pop
returned false the set is unchanged; when an event was popped the set afterwards is within
the old set plus the id of that event; hence the whole loop never removes an id either. -/
theorem processed_grows_by_popped_id_only (handler : List Nat → Bool) (st : WorkerState) :
    (∀ popped : Option Event, st.processed ⊆ (iteration handler st popped).processed) ∧
    (iteration handler st none).processed = st.processed ∧
    (∀ ev : Event, (iteration handler st (some ev)).processed ⊆ insert ev.id st.processed) ∧
    (∀ pops : List (Option Event), st.processed ⊆ (workerLoop handler st pops).processed) := by
  refine ⟨iteration_processed_subset handler st, rfl, ?_,
    fun pops => workerLoop_processed_subset handler pops st⟩
  intro ev
  by_cases h : ev.id ∈ st.processed
  · rw [iteration_dup handler st ev h]
    exact Finset.subset_insert _ _
  · rw [iteration_fresh handler st ev h]

/-! ## Worker pool: interleavings -/

theorem countP_set_add (p : Pc → Bool) (l : List Pc) (i : Nat) (a b : Pc)
    (h : l[i]? = some a) :
    (l.set i b).countP p + (if p a then 1 else 0) =
      l.countP p + (if p b then 1 else 0) := by
  induction l generalizing i with
  | nil => simp at h
  | cons c rest ih =>
    cases i with
    | zero =>
      simp only [List.getElem?_cons_zero, Option.some.injEq] at h
      subst h
      simp only [List.set_cons_zero, List.countP_cons]
      omega
    | succ i =>
      simp only [List.getElem?_cons_succ] at h
      have := ih i h
      simp only [List.set_cons_succ, List.countP_cons]
      omega

theorem Sys.exec_invariant (handler : List Nat → Bool) (P : Sys → Prop)
    (hstep : ∀ s a, P s → P (s.step handler a)) (acts : List Action) (s : Sys) (h : P s) :
    P (s.exec handler acts) := by
  induction acts generalizing s with
  | nil => exact h
  | cons a rest ih => exact ih _ (hstep s a h)

theorem Sys.DedupInv_workerStep (handler : List Nat → Bool) (x : Nat) (s : Sys) (i : Nat)
    (h : s.DedupInv x) : (s.workerStep handler i).DedupInv x := by
  obtain ⟨h1, h2⟩ := h
  unfold Sys.workerStep
  cases hw : s.workers[i]? with
  | none => exact ⟨h1, h2⟩
  | some pc =>
    have hH := fun b => countP_set_add (Pc.handles x) s.workers i pc b hw
    have hC := fun b => countP_set_add (Pc.checks x) s.workers i pc b hw
    cases pc with
    | atWhile =>
      simp only [Sys.DedupInv]
      cases hr : s.run
      · have a1 := hH Pc.exited
        have a2 := hC Pc.exited
        simp [Pc.handles, Pc.checks] at a1 a2
        simp only [Bool.false_eq_true, if_false]
        exact ⟨by omega, fun hx => by have := h2 hx; omega⟩
      · have a1 := hH Pc.atPop
        have a2 := hC Pc.atPop
        simp [Pc.handles, Pc.checks] at a1 a2
        simp only [if_true]
        exact ⟨by omega, fun hx => by have := h2 hx; omega⟩
    | atPop =>
      simp only [BoundedQueue.pop]
      cases hq : s.queue.q with
      | nil => exact ⟨h1, h2⟩
      | cons ev rest =>
        have a1 := hH (Pc.atCheck ev)
        have a2 := hC (Pc.atCheck ev)
        simp only [Sys.DedupInv]
        rw [hq] at h2
        simp only [List.map_cons, List.count_cons, beq_iff_eq] at h2
        by_cases hx : ev.id = x
        · simp [Pc.handles, Pc.checks, hx] at a1 a2 h2
          exact ⟨by omega, fun hp => by have := h2 hp; omega⟩
        · simp [Pc.handles, Pc.checks, hx] at a1 a2 h2
          exact ⟨by omega, fun hp => by have := h2 hp; omega⟩
    | atCheck ev =>
      simp only
      by_cases hin : ev.id ∈ s.processed
      · rw [if_pos hin]
        have a1 := hH Pc.atWhile
        have a2 := hC Pc.atWhile
        simp only [Sys.DedupInv]
        by_cases hx : ev.id = x
        · simp [Pc.handles, Pc.checks, hx] at a1 a2
          exact ⟨by omega, fun hp => absurd (hx ▸ hin) hp⟩
        · simp [Pc.handles, Pc.checks, hx] at a1 a2
          exact ⟨by omega, fun hp => by have := h2 hp; omega⟩
      · rw [if_neg hin]
        have a1 := hH (Pc.atHandle ev)
        have a2 := hC (Pc.atHandle ev)
        simp only [Sys.DedupInv]
        by_cases hx : ev.id = x
        · have hxp : x ∉ s.processed := hx ▸ hin
          simp [Pc.handles, Pc.checks, hx] at a1 a2
          rw [if_neg hxp] at h1
          rw [if_pos (by rw [← hx]; exact Finset.mem_insert_self _ _)]
          refine ⟨by omega, fun hp => absurd ?_ hp⟩
          rw [← hx]; exact Finset.mem_insert_self _ _
        · have hx' : ¬ x = ev.id := fun e => hx e.symm
          have hmem : x ∈ insert ev.id s.processed ↔ x ∈ s.processed := by
            simp [Finset.mem_insert, hx']
          simp [Pc.handles, Pc.checks, hx] at a1 a2
          simp only [hmem]
          exact ⟨by omega, fun hp => by have := h2 hp; omega⟩
    | atHandle ev =>
      have a1 := hH (Pc.atCommit ev)
      have a2 := hC (Pc.atCommit ev)
      simp only [Sys.DedupInv, handlerCount_append, handlerCount_processPayload]
      by_cases hx : ev.id = x
      · simp [Pc.handles, Pc.checks, hx] at a1 a2
        rw [if_pos hx]
        exact ⟨by omega, fun hp => by have := h2 hp; omega⟩
      · simp [Pc.handles, Pc.checks, hx] at a1 a2
        rw [if_neg hx]
        exact ⟨by omega, fun hp => by have := h2 hp; omega⟩
    | atCommit ev =>
      have a1 := hH Pc.atWhile
      have a2 := hC Pc.atWhile
      simp only [Sys.DedupInv, handlerCount_append, handlerCount_commit]
      simp [Pc.handles, Pc.checks] at a1 a2
      exact ⟨by omega, fun hp => by have := h2 hp; omega⟩
    | exited => exact ⟨h1, h2⟩

theorem Sys.DedupInv_step (handler : List Nat → Bool) (x : Nat) (s : Sys) (a : Action)
    (h : s.DedupInv x) : (s.step handler a).DedupInv x := by
  cases a with
  | worker i => exact Sys.DedupInv_workerStep handler x s i h
  | popFalse i =>
    simp only [Sys.step]
    split
    · rename_i hw hq
      obtain ⟨h1, h2⟩ := h
      have a1 := countP_set_add (Pc.handles x) s.workers i Pc.atPop Pc.atWhile hw
      have a2 := countP_set_add (Pc.checks x) s.workers i Pc.atPop Pc.atWhile hw
      simp [Pc.handles, Pc.checks] at a1 a2
      simp only [Sys.DedupInv]
      exact ⟨by omega, fun hp => by have := h2 hp; omega⟩
    · exact h
  | push ev t =>
    obtain ⟨h1, h2⟩ := h
    simp only [Sys.step, BoundedQueue.push]
    by_cases hlt : s.queue.q.length < s.queue.cap
    · simp only [if_pos hlt, if_true, Sys.DedupInv, List.map_append, List.count_append]
      exact ⟨h1, fun hp => by have := h2 hp; omega⟩
    · simp only [if_neg hlt, Bool.false_eq_true, if_false, Sys.DedupInv]
      exact ⟨h1, h2⟩
  | shutdown => exact h

theorem Sys.DedupInv_init (cap W : Nat) (processed0 : Finset Nat) (x : Nat)
    (hx : x ∉ processed0) : (Sys.init cap W processed0).DedupInv x := by
  have hH : (List.replicate W Pc.atWhile).countP (Pc.handles x) = 0 := by
    rw [List.countP_eq_zero]
    intro pc hpc
    rw [List.eq_of_mem_replicate hpc]
    simp [Pc.handles]
  have hC : (List.replicate W Pc.atWhile).countP (Pc.checks x) = 0 := by
    rw [List.countP_eq_zero]
    intro pc hpc
    rw [List.eq_of_mem_replicate hpc]
    simp [Pc.checks]
  simp only [Sys.DedupInv, Sys.init, BoundedQueue.new, hH, hC, if_neg hx]
  simp [handlerCount]

theorem sum_cost_set_add (l : List Pc) (i : Nat) (a b : Pc) (h : l[i]? = some a) :
    ((l.set i b).map Pc.cost).sum + a.cost = (l.map Pc.cost).sum + b.cost := by
  induction l generalizing i with
  | nil => simp at h
  | cons c rest ih =>
    cases i with
    | zero =>
      simp only [List.getElem?_cons_zero, Option.some.injEq] at h
      subst h
      simp only [List.set_cons_zero, List.map_cons, List.sum_cons]
      omega
    | succ i =>
      simp only [List.getElem?_cons_succ] at h
      have := ih i h
      simp only [List.set_cons_succ, List.map_cons, List.sum_cons]
      omega

theorem Sys.exec_append (handler : List Nat → Bool) (s : Sys) (a b : List Action) :
    s.exec handler (a ++ b) = (s.exec handler a).exec handler b := by
  simp [Sys.exec, List.foldl_append]

theorem Sys.step_calls_grow (handler : List Nat → Bool) (x : Nat) (s : Sys) (a : Action) :
    handlerCount x s.calls ≤ handlerCount x (s.step handler a).calls := by
  cases a with
  | worker i =>
    simp only [Sys.step, Sys.workerStep]
    cases s.workers[i]? with
    | none => exact Nat.le_refl _
    | some pc =>
      cases pc with
      | atPop =>
        simp only
        cases s.queue.pop with
        | none => exact Nat.le_refl _
        | some r => exact Nat.le_refl _
      | atCheck ev =>
        simp only
        split <;> exact Nat.le_refl _
      | atHandle ev =>
        simp only [handlerCount_append]
        omega
      | atCommit ev =>
        simp only [handlerCount_append]
        omega
      | atWhile => exact Nat.le_refl _
      | exited => exact Nat.le_refl _
  | popFalse i =>
    simp only [Sys.step]
    split <;> exact Nat.le_refl _
  | push ev t => exact Nat.le_refl _
  | shutdown => exact Nat.le_refl _

theorem Sys.exec_calls_grow (handler : List Nat → Bool) (x : Nat) (acts : List Action)
    (s : Sys) : handlerCount x s.calls ≤ handlerCount x (s.exec handler acts).calls := by
  induction acts generalizing s with
  | nil => exact Nat.le_refl _
  | cons a rest ih => exact (Sys.step_calls_grow handler x s a).trans (ih _)

theorem Sys.step_pushed_grow (handler : List Nat → Bool) (x : Nat) (s : Sys) (a : Action)
    (h : x ∈ s.pushed.map Event.id) : x ∈ (s.step handler a).pushed.map Event.id := by
  cases a with
  | worker i =>
    simp only [Sys.step, Sys.workerStep]
    cases s.workers[i]? with
    | none => exact h
    | some pc =>
      cases pc with
      | atPop =>
        simp only
        cases s.queue.pop with
        | none => exact h
        | some r => exact h
      | atCheck ev =>
        simp only
        split <;> exact h
      | atHandle ev => exact h
      | atCommit ev => exact h
      | atWhile => exact h
      | exited => exact h
  | popFalse i =>
    simp only [Sys.step]
    split <;> exact h
  | push ev t =>
    simp only [Sys.step]
    split
    · rw [List.map_append, List.mem_append]
      exact Or.inl h
    · exact h
  | shutdown => exact h

theorem Sys.not_exited_step (handler : List Nat → Bool) (s : Sys) (a : Action)
    (h : s.run = true → ∀ pc ∈ s.workers, pc ≠ Pc.exited) :
    (s.step handler a).run = true → ∀ pc ∈ (s.step handler a).workers, pc ≠ Pc.exited := by
  cases a with
  | worker i =>
    simp only [Sys.step, Sys.workerStep]
    cases s.workers[i]? with
    | none => exact h
    | some pc =>
      cases pc with
      | atWhile =>
        intro hr pc hpc
        simp only at hr hpc
        rcases List.mem_or_eq_of_mem_set hpc with hm | he
        · exact h hr pc hm
        · rw [he, hr]; simp
      | atPop =>
        simp only
        cases s.queue.pop with
        | none => exact h
        | some r =>
          intro hr pc hpc
          rcases List.mem_or_eq_of_mem_set hpc with hm | he
          · exact h hr pc hm
          · rw [he]; simp
      | atCheck ev =>
        simp only
        split <;>
        · intro hr pc hpc
          rcases List.mem_or_eq_of_mem_set hpc with hm | he
          · exact h hr pc hm
          · rw [he]; simp
      | atHandle ev =>
        intro hr pc hpc
        rcases List.mem_or_eq_of_mem_set hpc with hm | he
        · exact h hr pc hm
        · rw [he]; simp
      | atCommit ev =>
        intro hr pc hpc
        rcases List.mem_or_eq_of_mem_set hpc with hm | he
        · exact h hr pc hm
        · rw [he]; simp
      | exited => exact h
  | popFalse i =>
    simp only [Sys.step]
    split
    · intro hr pc hpc
      rcases List.mem_or_eq_of_mem_set hpc with hm | he
      · exact h hr pc hm
      · rw [he]; simp
    · exact h
  | push ev t => exact h
  | shutdown =>
    intro hr
    simp [Sys.step] at hr

theorem Sys.workers_length_step (handler : List Nat → Bool) (s : Sys) (a : Action) :
    (s.step handler a).workers.length = s.workers.length := by
  cases a with
  | worker i =>
    simp only [Sys.step, Sys.workerStep]
    cases s.workers[i]? with
    | none => rfl
    | some pc =>
      cases pc with
      | atPop =>
        simp only
        cases s.queue.pop with
        | none => rfl
        | some r => simp
      | atCheck ev =>
        simp only
        split <;> simp
      | atWhile => simp
      | atHandle ev => simp
      | atCommit ev => simp
      | exited => rfl
  | popFalse i =>
    simp only [Sys.step]
    split <;> simp
  | push ev t => rfl
  | shutdown => rfl

theorem Sys.weight_workerStep (handler : List Nat → Bool) (s : Sys) (i : Nat) (pc : Pc)
    (hw : s.workers[i]? = some pc) (hr : s.run = true) (hne : pc ≠ Pc.exited)
    (hpop : pc = Pc.atPop → s.queue.q ≠ []) :
    (s.workerStep handler i).weight < s.weight ∧ (s.workerStep handler i).run = true := by
  have hS := fun b => sum_cost_set_add s.workers i pc b hw
  unfold Sys.workerStep
  rw [hw]
  cases pc with
  | atWhile =>
    have a1 := hS Pc.atPop
    simp only [Pc.cost] at a1
    simp only [hr, if_true, Sys.weight]
    exact ⟨by omega, trivial⟩
  | atPop =>
    simp only [BoundedQueue.pop]
    cases hq : s.queue.q with
    | nil => exact absurd hq (hpop rfl)
    | cons ev rest =>
      have a1 := hS (Pc.atCheck ev)
      simp only [Pc.cost] at a1
      simp only [Sys.weight, hq, List.length_cons]
      exact ⟨by omega, hr⟩
  | atCheck ev =>
    have a1 := hS Pc.atWhile
    have a2 := hS (Pc.atHandle ev)
    simp only [Pc.cost] at a1 a2
    simp only
    split
    · exact ⟨by simp only [Sys.weight]; omega, hr⟩
    · exact ⟨by simp only [Sys.weight]; omega, hr⟩
  | atHandle ev =>
    have a1 := hS (Pc.atCommit ev)
    simp only [Pc.cost] at a1
    exact ⟨by simp only [Sys.weight]; omega, hr⟩
  | atCommit ev =>
    have a1 := hS Pc.atWhile
    simp only [Pc.cost] at a1
    exact ⟨by simp only [Sys.weight]; omega, hr⟩
  | exited => exact absurd rfl hne

theorem Sys.drain (handler : List Nat → Bool) (n : Nat) (s : Sys) (hn : s.weight < n)
    (hr : s.run = true) (hW : s.workers ≠ []) (hex : ∀ pc ∈ s.workers, pc ≠ Pc.exited) :
    ∃ more, (s.exec handler more).queue.q = [] ∧
      ∀ pc ∈ (s.exec handler more).workers, pc = Pc.atPop := by
  induction n generalizing s with
  | zero => exact absurd hn (Nat.not_lt_zero _)
  | succ n ih =>
    have next : ∀ (i : Nat) (pc : Pc), s.workers[i]? = some pc →
        (pc = Pc.atPop → s.queue.q ≠ []) →
        ∃ more, (s.exec handler more).queue.q = [] ∧
          ∀ pc ∈ (s.exec handler more).workers, pc = Pc.atPop := by
      intro i pc hw hpop
      have hmem : pc ∈ s.workers := List.mem_iff_getElem?.mpr ⟨i, hw⟩
      obtain ⟨hlt, hr'⟩ := Sys.weight_workerStep handler s i pc hw hr (hex pc hmem) hpop
      have hlen := Sys.workers_length_step handler s (Action.worker i)
      have hW' : (s.step handler (Action.worker i)).workers ≠ [] := by
        intro h0
        rw [h0] at hlen
        exact hW (List.length_eq_zero.mp hlen.symm)
      obtain ⟨more, hmore⟩ := ih (s.step handler (Action.worker i))
        (by simp only [Sys.step]; omega) hr' hW'
        (Sys.not_exited_step handler s (Action.worker i) (fun _ => hex) hr')
      exact ⟨Action.worker i :: more, hmore⟩
    by_cases hall : ∀ pc ∈ s.workers, pc = Pc.atPop
    · cases hq : s.queue.q with
      | nil => exact ⟨[], hq, hall⟩
      | cons ev rest =>
        obtain ⟨pc, rest', hws⟩ := List.exists_cons_of_ne_nil hW
        have h0 : s.workers[0]? = some pc := by rw [hws]; simp
        exact next 0 pc h0 (fun _ => by rw [hq]; exact List.cons_ne_nil _ _)
    · push_neg at hall
      obtain ⟨pc, hmem, hne⟩ := hall
      obtain ⟨i, hi⟩ := List.mem_iff_getElem?.mp hmem
      exact next i pc hi (fun h => absurd h hne)

theorem Sys.handled_at_most_once (handler : List Nat → Bool) (cap W : Nat)
    (processed0 : Finset Nat) (acts : List Action) (x : Nat) (hx : x ∉ processed0) :
    handlerCount x ((Sys.init cap W processed0).exec handler acts).calls ≤ 1 := by
  obtain ⟨h1, _⟩ := Sys.exec_invariant handler (Sys.DedupInv x)
    (fun s a h => Sys.DedupInv_step handler x s a h) acts _
    (Sys.DedupInv_init cap W processed0 x hx)
  split at h1 <;> omega

theorem Sys.handled_once_when_consumed (handler : List Nat → Bool) (cap W : Nat)
    (processed0 : Finset Nat) (acts : List Action) (x : Nat) (hx : x ∉ processed0)
    (hpushed : x ∈ ((Sys.init cap W processed0).exec handler acts).pushed.map Event.id)
    (hqueue : x ∉ ((Sys.init cap W processed0).exec handler acts).queue.q.map Event.id)
    (hworkers : ∀ pc ∈ ((Sys.init cap W processed0).exec handler acts).workers,
        pc.checks x = false ∧ pc.handles x = false) :
    handlerCount x ((Sys.init cap W processed0).exec handler acts).calls = 1 := by
  obtain ⟨h1, h2⟩ := Sys.exec_invariant handler (Sys.DedupInv x)
    (fun s a h => Sys.DedupInv_step handler x s a h) acts _
    (Sys.DedupInv_init cap W processed0 x hx)
  have hH : ((Sys.init cap W processed0).exec handler acts).workers.countP (Pc.handles x)
      = 0 := by
    rw [List.countP_eq_zero]
    intro pc hpc
    simp [(hworkers pc hpc).2]
  have hC : ((Sys.init cap W processed0).exec handler acts).workers.countP (Pc.checks x)
      = 0 := by
    rw [List.countP_eq_zero]
    intro pc hpc
    simp [(hworkers pc hpc).1]
  by_cases hp : x ∈ ((Sys.init cap W processed0).exec handler acts).processed
  · rw [if_pos hp, hH] at h1
    exact h1
  · have h3 := h2 hp
    rw [hC, List.count_eq_zero_of_not_mem hqueue] at h3
    exact absurd hpushed (List.count_eq_zero.mp h3)

/-- C2. For every number of workers, queue capacity and handler, every initial processed
set that does not hold the id `x`, and every interleaving of worker steps, pushes, failed
pops and a shutdown request:
(1) `processPayload` is never invoked more than once for `x`;
(2) in every state in which an event of id `x` has been accepted by the queue (once, twice
or more often, at any moments), none is left in the queue and no worker holds one before its
dedupe test or before its handler call, `processPayload` has been invoked exactly once for
`x`;
(3) with at least one worker and `run` still true, from every state in which an event of id
`x` has been accepted the workers can go on to a state from which, whatever happens later,
the number of `processPayload` calls for `x` is exactly one. -/
theorem concurrent_duplicate_handled_once (handler : List Nat → Bool) (cap W : Nat)
    (processed0 : Finset Nat) (acts : List Action) (x : Nat) (hx : x ∉ processed0) :
    handlerCount x ((Sys.init cap W processed0).exec handler acts).calls ≤ 1 ∧
    (x ∈ ((Sys.init cap W processed0).exec handler acts).pushed.map Event.id →
     x ∉ ((Sys.init cap W processed0).exec handler acts).queue.q.map Event.id →
     (∀ pc ∈ ((Sys.init cap W processed0).exec handler acts).workers,
        pc.checks x = false ∧ pc.handles x = false) →
     handlerCount x ((Sys.init cap W processed0).exec handler acts).calls = 1) ∧
    (0 < W → ((Sys.init cap W processed0).exec handler acts).run = true →
     x ∈ ((Sys.init cap W processed0).exec handler acts).pushed.map Event.id →
     ∃ more : List Action, ∀ later : List Action,
       handlerCount x
         ((Sys.init cap W processed0).exec handler (acts ++ more ++ later)).calls = 1) := by
  refine ⟨Sys.handled_at_most_once handler cap W processed0 acts x hx,
    Sys.handled_once_when_consumed handler cap W processed0 acts x hx, ?_⟩
  intro hW hrun hpushed
  have hlen := Sys.exec_invariant handler (fun s => s.workers.length = W)
    (fun s a h => (Sys.workers_length_step handler s a).trans h) acts
    (Sys.init cap W processed0) (by simp [Sys.init])
  have hex := Sys.exec_invariant handler
    (fun s => s.run = true → ∀ pc ∈ s.workers, pc ≠ Pc.exited)
    (fun s a h => Sys.not_exited_step handler s a h) acts (Sys.init cap W processed0)
    (by
      intro _ pc hpc
      rw [List.eq_of_mem_replicate hpc]
      simp)
  have hne : ((Sys.init cap W processed0).exec handler acts).workers ≠ [] := by
    intro h0
    simp only [h0, List.length_nil] at hlen
    omega
  obtain ⟨more, hq, hall⟩ := Sys.drain handler _ _ (Nat.lt_succ_self _) hrun hne (hex hrun)
  refine ⟨more, fun later => ?_⟩
  rw [← Sys.exec_append] at hq hall
  have hone := Sys.handled_once_when_consumed handler cap W processed0 (acts ++ more) x hx
    (by
      rw [Sys.exec_append]
      exact Sys.exec_invariant handler (fun s => x ∈ s.pushed.map Event.id)
        (fun s a h => Sys.step_pushed_grow handler x s a h) more _ hpushed)
    (by rw [hq]; simp)
    (by
      intro pc hpc
      rw [hall pc hpc]
      simp [Pc.checks, Pc.handles])
  have hle := Sys.handled_at_most_once handler cap W processed0 (acts ++ more ++ later) x hx
  have hge := Sys.exec_calls_grow handler x later
    ((Sys.init cap W processed0).exec handler (acts ++ more))
  rw [← Sys.exec_append] at hge
  omega

/-- C2, at a concrete input: two workers, id 7 pushed twice; both copies are popped, worker 1
wins the dedupe test, worker 0 discards its copy, worker 1 calls the handler and commits. -/
theorem concurrent_duplicate_handled_once_witness :
    handlerCount 7 ((Sys.init 1024 2 ∅).exec (fun _ => true)
      [Action.push ⟨7, 3, [1]⟩ 0, Action.push ⟨7, 3, [1]⟩ 0,
       Action.worker 0, Action.worker 0, Action.worker 1, Action.worker 1,
       Action.worker 1, Action.worker 0, Action.worker 1, Action.worker 1]).calls = 1 :=
  (concurrent_duplicate_handled_once (fun _ => true) 1024 2 ∅
      [Action.push ⟨7, 3, [1]⟩ 0, Action.push ⟨7, 3, [1]⟩ 0,
       Action.worker 0, Action.worker 0, Action.worker 1, Action.worker 1,
       Action.worker 1, Action.worker 0, Action.worker 1, Action.worker 1] 7
      (by decide)).2.1 (by decide) (by decide) (by decide)

theorem commitIds_append (a b : List Call) :
    commitIds (a ++ b) = commitIds a ++ commitIds b := by
  simp [commitIds, List.filterMap_append]

theorem Sys.fifo_step (handler : List Nat → Bool) (s : Sys) (a : Action)
    (h : s.popped ++ s.queue.q = s.pushed) :
    (s.step handler a).popped ++ (s.step handler a).queue.q = (s.step handler a).pushed := by
  cases a with
  | worker i =>
    simp only [Sys.step, Sys.workerStep]
    cases hw : s.workers[i]? with
    | none => exact h
    | some pc =>
      cases pc with
      | atPop =>
        simp only [BoundedQueue.pop]
        cases hq : s.queue.q with
        | nil => simpa [hq] using h
        | cons ev rest =>
          rw [hq] at h
          simpa using h
      | atCheck ev =>
        simp only
        split <;> exact h
      | atWhile => exact h
      | atHandle ev => exact h
      | atCommit ev => exact h
      | exited => exact h
  | popFalse i =>
    simp only [Sys.step]
    split <;> exact h
  | push ev t =>
    simp only [Sys.step, BoundedQueue.push]
    by_cases hlt : s.queue.q.length < s.queue.cap
    · simp only [if_pos hlt, if_true]
      rw [← List.append_assoc, h]
    · simp only [if_neg hlt, Bool.false_eq_true, if_false]
      exact h
  | shutdown => exact h

theorem Sys.single_worker_step (handler : List Nat → Bool) (s : Sys) (a : Action)
    (h : ∃ pc, s.workers = [pc] ∧
      (commitIds s.calls ++ pc.held).Sublist (s.popped.map Event.id)) :
    ∃ pc, (s.step handler a).workers = [pc] ∧
      (commitIds (s.step handler a).calls ++ pc.held).Sublist
        ((s.step handler a).popped.map Event.id) := by
  obtain ⟨pc, hw, hsub⟩ := h
  cases a with
  | worker i =>
    simp only [Sys.step, Sys.workerStep, hw]
    cases i with
    | succ i => exact ⟨pc, by simpa using hw, by simpa using hsub⟩
    | zero =>
      simp only [List.getElem?_cons_zero, List.set_cons_zero]
      cases pc with
      | atWhile =>
        refine ⟨_, rfl, ?_⟩
        cases s.run <;> simpa [Pc.held] using hsub
      | atPop =>
        simp only [BoundedQueue.pop]
        cases hq : s.queue.q with
        | nil => exact ⟨Pc.atPop, hw, hsub⟩
        | cons ev rest =>
          refine ⟨_, rfl, ?_⟩
          simp only [Pc.held, List.append_nil, List.map_append, List.map_cons,
            List.map_nil] at hsub ⊢
          exact hsub.append (List.Sublist.refl _)
      | atCheck ev =>
        simp only
        split
        · refine ⟨_, rfl, ?_⟩
          simp only [Pc.held, List.append_nil] at hsub ⊢
          exact (List.sublist_append_left _ _).trans hsub
        · exact ⟨_, rfl, by simpa [Pc.held] using hsub⟩
      | atHandle ev =>
        refine ⟨_, rfl, ?_⟩
        simpa [Pc.held, commitIds_append, commitIds] using hsub
      | atCommit ev =>
        refine ⟨_, rfl, ?_⟩
        simpa [Pc.held, commitIds_append, commitIds] using hsub
      | exited => exact ⟨Pc.exited, hw, hsub⟩
  | popFalse i =>
    simp only [Sys.step, hw]
    cases i with
    | succ i => exact ⟨pc, by simpa using hw, by simpa using hsub⟩
    | zero =>
      simp only [List.getElem?_cons_zero]
      cases pc <;> first
        | exact ⟨_, hw, hsub⟩
        | (cases hq : s.queue.q with
           | nil => exact ⟨_, rfl, by simpa [Pc.held] using hsub⟩
           | cons ev rest => exact ⟨_, hw, hsub⟩)
  | push ev t => exact ⟨pc, hw, hsub⟩
  | shutdown => exact ⟨pc, hw, hsub⟩

/-- C5, refuted as stated. Two workers, ids 1 and 2 enqueued in this order and both
accepted: worker 0 pops 1, worker 1 pops 2 and runs to its commit first, then worker 0
commits; `commitProgressAsync` receives 2 before 1. -/
theorem two_workers_commit_out_of_order :
    ((Sys.init 1024 2 ∅).exec (fun _ => true)
      [Action.push ⟨1, 3, [10]⟩ 0, Action.push ⟨2, 3, [20]⟩ 0,
       Action.worker 0, Action.worker 0, Action.worker 1, Action.worker 1,
       Action.worker 1, Action.worker 1, Action.worker 1,
       Action.worker 0, Action.worker 0, Action.worker 0]).pushed.map Event.id = [1, 2] ∧
    commitIds ((Sys.init 1024 2 ∅).exec (fun _ => true)
      [Action.push ⟨1, 3, [10]⟩ 0, Action.push ⟨2, 3, [20]⟩ 0,
       Action.worker 0, Action.worker 0, Action.worker 1, Action.worker 1,
       Action.worker 1, Action.worker 1, Action.worker 1,
       Action.worker 0, Action.worker 0, Action.worker 0]).calls = [2, 1] ∧
    ¬ List.Sorted (· ≤ ·) (commitIds ((Sys.init 1024 2 ∅).exec (fun _ => true)
      [Action.push ⟨1, 3, [10]⟩ 0, Action.push ⟨2, 3, [20]⟩ 0,
       Action.worker 0, Action.worker 0, Action.worker 1, Action.worker 1,
       Action.worker 1, Action.worker 1, Action.worker 1,
       Action.worker 0, Action.worker 0, Action.worker 0]).calls) := by
  decide

/-- C5, amended. When the ids of the events the queue accepts are non-decreasing in the
order of acceptance (as for ids 1..n enqueued in increasing order), then for every number
of workers and every interleaving the events are popped in non-decreasing id order, and
with a single worker (`W = 1`) the ids passed to `commitProgressAsync` are non-decreasing
in the order of the calls. -/
theorem single_worker_commits_in_order (handler : List Nat → Bool) (cap W : Nat)
    (processed0 : Finset Nat) (acts : List Action)
    (hs : List.Sorted (· ≤ ·)
      (((Sys.init cap W processed0).exec handler acts).pushed.map Event.id)) :
    List.Sorted (· ≤ ·) (((Sys.init cap W processed0).exec handler acts).popped.map Event.id) ∧
    (W = 1 →
      List.Sorted (· ≤ ·) (commitIds ((Sys.init cap W processed0).exec handler acts).calls)) := by
  have hfifo := Sys.exec_invariant handler (fun s => s.popped ++ s.queue.q = s.pushed)
    (fun s a h => Sys.fifo_step handler s a h) acts (Sys.init cap W processed0) rfl
  have hpop : List.Sorted (· ≤ ·)
      (((Sys.init cap W processed0).exec handler acts).popped.map Event.id) := by
    refine List.Pairwise.sublist ?_ hs
    rw [← hfifo, List.map_append]
    exact List.sublist_append_left _ _
  refine ⟨hpop, ?_⟩
  intro hW
  subst hW
  obtain ⟨pc, _, hsub⟩ := Sys.exec_invariant handler
    (fun s => ∃ pc, s.workers = [pc] ∧
      (commitIds s.calls ++ pc.held).Sublist (s.popped.map Event.id))
    (fun s a h => Sys.single_worker_step handler s a h) acts (Sys.init cap 1 processed0)
    ⟨Pc.atWhile, rfl, by simp [Sys.init, commitIds, Pc.held]⟩
  exact List.Pairwise.sublist ((List.sublist_append_left _ _).trans hsub) hpop

/-- C5 amended, at a concrete input: one worker, ids 1, 2, 3 pushed while it works. -/
theorem single_worker_commits_in_order_witness :
    List.Sorted (· ≤ ·) (commitIds ((Sys.init 1024 1 ∅).exec (fun _ => true)
      [Action.push ⟨1, 3, [10]⟩ 0, Action.worker 0, Action.worker 0,
       Action.push ⟨2, 3, [20]⟩ 0, Action.worker 0, Action.worker 0, Action.worker 0,
       Action.push ⟨3, 3, [30]⟩ 0, Action.worker 0, Action.worker 0, Action.worker 0,
       Action.worker 0, Action.worker 0, Action.worker 0]).calls) :=
  (single_worker_commits_in_order (fun _ => true) 1024 1 ∅
      [Action.push ⟨1, 3, [10]⟩ 0, Action.worker 0, Action.worker 0,
       Action.push ⟨2, 3, [20]⟩ 0, Action.worker 0, Action.worker 0, Action.worker 0,
       Action.push ⟨3, 3, [30]⟩ 0, Action.worker 0, Action.worker 0, Action.worker 0,
       Action.worker 0, Action.worker 0, Action.worker 0] (by decide)).2 rfl

theorem Sys.after_shutdown_step (handler : List Nat → Bool) (A B N : Nat) (s : Sys)
    (a : Action)
    (h : s.run = false ∧ s.popped.length + s.workers.countP Pc.pops ≤ A ∧
      B + s.workers.countP Pc.pops ≤ s.queue.q.length + N) :
    (s.step handler a).run = false ∧
    (s.step handler a).popped.length + (s.step handler a).workers.countP Pc.pops ≤ A ∧
    B + (s.step handler a).workers.countP Pc.pops ≤ (s.step handler a).queue.q.length + N := by
  obtain ⟨hr, h1, h2⟩ := h
  cases a with
  | worker i =>
    simp only [Sys.step, Sys.workerStep]
    cases hw : s.workers[i]? with
    | none => exact ⟨hr, h1, h2⟩
    | some pc =>
      have hP := fun b => countP_set_add Pc.pops s.workers i pc b hw
      cases pc with
      | atWhile =>
        have a1 := hP Pc.exited
        simp [Pc.pops] at a1
        simp only [hr, Bool.false_eq_true, if_false]
        exact ⟨trivial, by omega, by omega⟩
      | atPop =>
        simp only [BoundedQueue.pop]
        cases hq : s.queue.q with
        | nil => simpa [hq] using And.intro hr (And.intro h1 h2)
        | cons ev rest =>
          have a1 := hP (Pc.atCheck ev)
          simp [Pc.pops] at a1
          rw [hq] at h2
          simp only [List.length_cons, List.length_append, List.length_nil] at h2 ⊢
          exact ⟨hr, by omega, by omega⟩
      | atCheck ev =>
        have a1 := hP Pc.atWhile
        have a2 := hP (Pc.atHandle ev)
        simp [Pc.pops] at a1 a2
        simp only
        split
        · exact ⟨hr, by simp only; omega, by simp only; omega⟩
        · exact ⟨hr, by simp only; omega, by simp only; omega⟩
      | atHandle ev =>
        have a1 := hP (Pc.atCommit ev)
        simp [Pc.pops] at a1
        exact ⟨hr, by simp only; omega, by simp only; omega⟩
      | atCommit ev =>
        have a1 := hP Pc.atWhile
        simp [Pc.pops] at a1
        exact ⟨hr, by simp only; omega, by simp only; omega⟩
      | exited => exact ⟨hr, h1, h2⟩
  | popFalse i =>
    simp only [Sys.step]
    split
    · rename_i hw hq
      have a1 := countP_set_add Pc.pops s.workers i Pc.atPop Pc.atWhile hw
      simp [Pc.pops] at a1
      exact ⟨hr, by simp only; omega, by simp only; omega⟩
    · exact ⟨hr, h1, h2⟩
  | push ev t =>
    simp only [Sys.step, BoundedQueue.push]
    by_cases hlt : s.queue.q.length < s.queue.cap
    · simp only [if_pos hlt, List.length_append, List.length_cons, List.length_nil]
      exact ⟨hr, h1, by omega⟩
    · simp only [if_neg hlt]
      exact ⟨hr, h1, h2⟩
  | shutdown => exact ⟨rfl, h1, h2⟩

/-- C8, refuted as stated. The pool of `main` (capacity 1024, four workers) holds three
events in its queue when shutdown is requested; every worker then evaluates `while (run)`
and leaves the loop: all four have returned, the three events are still in the queue, and
neither `processPayload` nor `commitProgressAsync` has been called. -/
theorem shutdown_leaves_queue_undrained :
    ((Sys.init 1024 4 ∅).exec (fun _ => true)
      [Action.push ⟨1, 3, [10]⟩ 0, Action.push ⟨2, 3, [20]⟩ 0, Action.push ⟨3, 3, [30]⟩ 0,
       Action.shutdown,
       Action.worker 0, Action.worker 1, Action.worker 2, Action.worker 3]).workers =
      [Pc.exited, Pc.exited, Pc.exited, Pc.exited] ∧
    ((Sys.init 1024 4 ∅).exec (fun _ => true)
      [Action.push ⟨1, 3, [10]⟩ 0, Action.push ⟨2, 3, [20]⟩ 0, Action.push ⟨3, 3, [30]⟩ 0,
       Action.shutdown,
       Action.worker 0, Action.worker 1, Action.worker 2, Action.worker 3]).queue.q =
      [⟨1, 3, [10]⟩, ⟨2, 3, [20]⟩, ⟨3, 3, [30]⟩] ∧
    ((Sys.init 1024 4 ∅).exec (fun _ => true)
      [Action.push ⟨1, 3, [10]⟩ 0, Action.push ⟨2, 3, [20]⟩ 0, Action.push ⟨3, 3, [30]⟩ 0,
       Action.shutdown,
       Action.worker 0, Action.worker 1, Action.worker 2, Action.worker 3]).calls = [] := by
  decide

/-- C8, amended. Once `run` is false the queue is not drained. A worker that evaluates
`while (run)` leaves the loop without popping. In every continuation, whatever the
interleaving, at most as many events are popped as workers were waiting inside `pop` when
the flag was cleared, and the queue keeps all its events but that many. -/
theorem shutdown_stops_workers_without_draining (handler : List Nat → Bool) (s : Sys)
    (acts : List Action) (hrun : s.run = false) :
    (∀ i, s.workers[i]? = some Pc.atWhile →
      s.step handler (Action.worker i) = { s with workers := s.workers.set i Pc.exited }) ∧
    (s.exec handler acts).run = false ∧
    (s.exec handler acts).popped.length ≤ s.popped.length + s.workers.countP Pc.pops ∧
    s.queue.q.length ≤ (s.exec handler acts).queue.q.length + s.workers.countP Pc.pops := by
  obtain ⟨h0, h1, h2⟩ := Sys.exec_invariant handler
    (fun t => t.run = false ∧
      t.popped.length + t.workers.countP Pc.pops ≤
        s.popped.length + s.workers.countP Pc.pops ∧
      s.queue.q.length + t.workers.countP Pc.pops ≤
        t.queue.q.length + s.workers.countP Pc.pops)
    (fun t a h => Sys.after_shutdown_step handler _ _ _ t a h) acts s
    ⟨hrun, Nat.le_refl _, Nat.le_refl _⟩
  refine ⟨?_, h0, by omega, by omega⟩
  intro i hi
  simp [Sys.step, Sys.workerStep, hi, hrun]

/-- C8 amended, at a concrete input: three events queued, shutdown requested while worker 0
stands at the loop test and worker 1 waits inside `pop`; afterwards at most one event is
popped and at least two stay in the queue. -/
theorem shutdown_stops_workers_without_draining_witness :
    (((Sys.init 1024 2 ∅).exec (fun _ => true)
        [Action.worker 1, Action.push ⟨1, 3, [10]⟩ 0, Action.push ⟨2, 3, [20]⟩ 0,
         Action.push ⟨3, 3, [30]⟩ 0, Action.shutdown]).exec (fun _ => true)
        [Action.worker 0, Action.worker 1, Action.worker 1, Action.worker 1,
         Action.worker 1, Action.worker 1, Action.worker 0]).popped.length ≤
      ((Sys.init 1024 2 ∅).exec (fun _ => true)
        [Action.worker 1, Action.push ⟨1, 3, [10]⟩ 0, Action.push ⟨2, 3, [20]⟩ 0,
         Action.push ⟨3, 3, [30]⟩ 0, Action.shutdown]).popped.length +
      ((Sys.init 1024 2 ∅).exec (fun _ => true)
        [Action.worker 1, Action.push ⟨1, 3, [10]⟩ 0, Action.push ⟨2, 3, [20]⟩ 0,
         Action.push ⟨3, 3, [30]⟩ 0, Action.shutdown]).workers.countP Pc.pops :=
  (shutdown_stops_workers_without_draining (fun _ => true)
      ((Sys.init 1024 2 ∅).exec (fun _ => true)
        [Action.worker 1, Action.push ⟨1, 3, [10]⟩ 0, Action.push ⟨2, 3, [20]⟩ 0,
         Action.push ⟨3, 3, [30]⟩ 0, Action.shutdown])
      [Action.worker 0, Action.worker 1, Action.worker 1, Action.worker 1,
       Action.worker 1, Action.worker 1, Action.worker 0]
      (by decide)).2.2.1

/-- The pool model and the one-worker model agree: a worker that stands at the loop test
with `run` true and the event `ev` at the front of the queue, and then runs alone through one
pass of the loop body (three atomic steps when `ev` is a duplicate, five otherwise), changes
the processed set and the calls exactly as `iteration` does on the pop result `some ev`, and
stands at the loop test again. -/
theorem Sys.worker_pass_eq_iteration (handler : List Nat → Bool) (s : Sys) (i : Nat)
    (ev : Event) (rest : List Event) (hw : s.workers[i]? = some Pc.atWhile)
    (hr : s.run = true) (hq : s.queue.q = ev :: rest) :
    ({ processed := (s.exec handler (List.replicate
          (if ev.id ∈ s.processed then 3 else 5) (Action.worker i))).processed,
       calls := (s.exec handler (List.replicate
          (if ev.id ∈ s.processed then 3 else 5) (Action.worker i))).calls } : WorkerState) =
      iteration handler { processed := s.processed, calls := s.calls } (some ev) ∧
    (s.exec handler (List.replicate
          (if ev.id ∈ s.processed then 3 else 5) (Action.worker i))).workers =
      s.workers.set i Pc.atWhile ∧
    (s.exec handler (List.replicate
          (if ev.id ∈ s.processed then 3 else 5) (Action.worker i))).queue.q = rest := by
  have hi : i < s.workers.length := by
    rcases Nat.lt_or_ge i s.workers.length with h | h
    · exact h
    · rw [List.getElem?_eq_none h] at hw; cases hw
  by_cases hin : ev.id ∈ s.processed
  · simp [hin, Sys.exec, Sys.step, Sys.workerStep, hw, hr, hq, hi, BoundedQueue.pop,
      iteration, List.replicate]
  · simp [hin, Sys.exec, Sys.step, Sys.workerStep, hw, hr, hq, hi, BoundedQueue.pop,
      iteration, List.replicate]

end Reactor

/-! # Sensor-fusion node -/

namespace Fusion

theorem Stamp.ms_range (s : Stamp) : 0 ≤ s.ms ∧ s.ms < 4294967296 := by
  unfold Stamp.ms u32
  omega

theorem MsgBuffer.pop_until_nil {β : Type} (t_ms : Int) :
    ({ buf_ := [] } : MsgBuffer β).pop_until t_ms = (none, { buf_ := [] }) := rfl

theorem MsgBuffer.pop_until_cons_le {β : Type} (m : Msg β) (rest : List (Msg β)) (t_ms : Int)
    (h : m.stamp.ms ≤ t_ms) :
    ({ buf_ := m :: rest } : MsgBuffer β).pop_until t_ms = (some m, { buf_ := rest }) := by
  simp only [MsgBuffer.pop_until]
  rw [if_neg (by omega)]

theorem MsgBuffer.pop_until_cons_gt {β : Type} (m : Msg β) (rest : List (Msg β)) (t_ms : Int)
    (h : t_ms < m.stamp.ms) :
    ({ buf_ := m :: rest } : MsgBuffer β).pop_until t_ms = (none, { buf_ := m :: rest }) := by
  simp only [MsgBuffer.pop_until]
  rw [if_pos (by omega)]

/-- On a buffer whose messages are in non-decreasing stamp order, `pop_until` does what its
comment says: if some message has a stamp `<= t_ms`, the front message is removed and
returned and no message of the buffer has a smaller stamp; and on every buffer without such
a message the answer is `nullptr` and the buffer is unchanged. -/
theorem MsgBuffer.pop_until_ordered {β : Type} (b : MsgBuffer β) (t_ms : Int)
    (hs : b.buf_.Pairwise (fun a c => a.stamp.ms ≤ c.stamp.ms)) :
    ((∃ m ∈ b.buf_, m.stamp.ms ≤ t_ms) →
      ∃ m rest, b.buf_ = m :: rest ∧ b.pop_until t_ms = (some m, { buf_ := rest }) ∧
        m.stamp.ms ≤ t_ms ∧ ∀ m' ∈ b.buf_, m.stamp.ms ≤ m'.stamp.ms) ∧
    ((¬ ∃ m ∈ b.buf_, m.stamp.ms ≤ t_ms) → b.pop_until t_ms = (none, b)) := by
  obtain ⟨buf⟩ := b
  cases buf with
  | nil =>
    refine ⟨?_, fun _ => rfl⟩
    rintro ⟨m, hm, _⟩
    cases hm
  | cons m rest =>
    simp only [List.pairwise_cons] at hs
    constructor
    · rintro ⟨m', hm', hle⟩
      have hfront : m.stamp.ms ≤ t_ms := by
        rcases List.mem_cons.mp hm' with h | h
        · rw [← h]; exact hle
        · exact (hs.1 m' h).trans hle
      refine ⟨m, rest, rfl, MsgBuffer.pop_until_cons_le m rest t_ms hfront, hfront, ?_⟩
      intro m'' hm''
      rcases List.mem_cons.mp hm'' with h | h
      · rw [h]
      · exact hs.1 m'' h
    · intro hno
      apply MsgBuffer.pop_until_cons_gt
      by_contra hle
      exact hno ⟨m, List.mem_cons_self _ _, by omega⟩

/-- C11, evaluated where the code departs from it. `pop_until` looks at the front message
only. With stamps 10 ms and 5 ms in the buffer, in this order, `pop_until(7)` answers
`nullptr` and leaves the buffer as it is, although the message stamped 5 ms qualifies; with
stamps 5 ms and 3 ms, `pop_until(7)` returns the message stamped 5 ms, not the one with the
smallest stamp. -/
theorem pop_until_looks_at_front_only :
    (∃ m ∈ ({ buf_ := [⟨⟨0, 10000000⟩, 1⟩, ⟨⟨0, 5000000⟩, 2⟩] } : MsgBuffer Nat).buf_,
        m.stamp.ms ≤ 7) ∧
    ({ buf_ := [⟨⟨0, 10000000⟩, 1⟩, ⟨⟨0, 5000000⟩, 2⟩] } : MsgBuffer Nat).pop_until 7 =
      (none, { buf_ := [⟨⟨0, 10000000⟩, 1⟩, ⟨⟨0, 5000000⟩, 2⟩] }) ∧
    ({ buf_ := [⟨⟨0, 5000000⟩, 1⟩, ⟨⟨0, 3000000⟩, 2⟩] } : MsgBuffer Nat).pop_until 7 =
      (some ⟨⟨0, 5000000⟩, 1⟩, { buf_ := [⟨⟨0, 3000000⟩, 2⟩] }) ∧
    (⟨0, 3000000⟩ : Stamp).ms < (⟨0, 5000000⟩ : Stamp).ms := by
  refine ⟨⟨⟨⟨0, 5000000⟩, 2⟩, by simp, by decide⟩, by decide, by decide, by decide⟩

/-- The stamps are compared as the code computes them, modulo `2^32` milliseconds. A radar
message stamped 4294967 s + 300 ms gives `radar_ts = 4`, an IMU message stamped
4294967 s + 200 ms gives 4294967200, so `fusion_loop` leaves that IMU message in the buffer;
and an IMU message stamped 4294968 s gives 704 and is removed for `radar_ts = 1000`. -/
theorem fusion_loop_compares_wrapped_stamps :
    (⟨4294967, 300000000⟩ : Stamp).ms = 4 ∧
    (⟨4294967, 200000000⟩ : Stamp).ms = 4294967200 ∧
    FusionNode.fusion_loop 2 5000000000
        ({ imu_buf_ := { buf_ := [⟨⟨4294967, 200000000⟩, 1⟩] },
           radar_buf_ := { buf_ := [⟨⟨4294967, 300000000⟩, []⟩] },
           calls := [], imu_pops := 0 } : FusionNode Nat Nat) =
      some { imu_buf_ := { buf_ := [⟨⟨4294967, 200000000⟩, 1⟩] },
             radar_buf_ := { buf_ := [] }, calls := [], imu_pops := 1 } ∧
    (⟨4294968, 0⟩ : Stamp).ms = 704 ∧
    FusionNode.align 2 1000
        ({ imu_buf_ := { buf_ := [⟨⟨4294968, 0⟩, 1⟩] }, radar_buf_ := { buf_ := [] },
           calls := [], imu_pops := 0 } : FusionNode Nat Nat) =
      some { imu_buf_ := { buf_ := [] }, radar_buf_ := { buf_ := [] },
             calls := [FilterCall.predict_with_imu ⟨⟨4294968, 0⟩, 1⟩], imu_pops := 2 } := by
  decide

end Fusion

/-! # Periodic loops -/

namespace Periodic

theorem wrap64_eq (x : Int) (hlo : -9223372036854775808 ≤ x) (hhi : x < 9223372036854775808) :
    wrap64 x = x := by
  unfold wrap64
  omega

theorem safety_loop_carry_done (fuel : Nat) (t : Timespec) (h : t.tv_nsec < 1000000000) :
    safety_loop_carry fuel t = some t := by
  cases fuel <;> simp only [safety_loop_carry] <;> rw [if_neg (by omega)]

theorem safety_loop_next_eq (fuel : Nat) (ts : Timespec) (hfuel : 1 ≤ fuel)
    (hn : ts.normalised) (hlo : -9223372036854775808 ≤ ts.tv_sec)
    (hhi : ts.tv_sec < 9223372036854775807) :
    safety_loop_next fuel ts =
      some (if ts.tv_nsec + 20000000 ≥ 1000000000 then
              { tv_sec := ts.tv_sec + 1, tv_nsec := ts.tv_nsec + 20000000 - 1000000000 }
            else { tv_sec := ts.tv_sec, tv_nsec := ts.tv_nsec + 20000000 }) := by
  obtain ⟨h0, h1⟩ := hn
  obtain ⟨k, rfl⟩ : ∃ k, fuel = k + 1 := ⟨fuel - 1, by omega⟩
  have hadd : wrap64 (ts.tv_nsec + safety_loop_period_ns) = ts.tv_nsec + 20000000 := by
    unfold safety_loop_period_ns
    exact wrap64_eq _ (by omega) (by omega)
  unfold safety_loop_next
  rw [hadd]
  by_cases hc : ts.tv_nsec + 20000000 ≥ 1000000000
  · rw [if_pos hc]
    simp only [safety_loop_carry]
    rw [if_pos hc, wrap64_eq (ts.tv_nsec + 20000000 - 1000000000) (by omega) (by omega),
      wrap64_eq (ts.tv_sec + 1) (by omega) (by omega)]
    exact safety_loop_carry_done k _ (by simp only; omega)
  · rw [if_neg hc]
    exact safety_loop_carry_done (k + 1) _ (by simp only; omega)

theorem single_carry_eq (period : Int) (ts : Timespec) (hp0 : 0 ≤ period)
    (hp1 : period ≤ 1000000000) (hn : ts.normalised)
    (hlo : -9223372036854775808 ≤ ts.tv_sec) (hhi : ts.tv_sec < 9223372036854775807) :
    (if wrap64 (ts.tv_nsec + period) ≥ 1000000000 then
        ({ tv_sec := wrap64 (ts.tv_sec + 1),
           tv_nsec := wrap64 (wrap64 (ts.tv_nsec + period) - 1000000000) } : Timespec)
      else { ts with tv_nsec := wrap64 (ts.tv_nsec + period) }).normalised ∧
    (if wrap64 (ts.tv_nsec + period) ≥ 1000000000 then
        ({ tv_sec := wrap64 (ts.tv_sec + 1),
           tv_nsec := wrap64 (wrap64 (ts.tv_nsec + period) - 1000000000) } : Timespec)
      else { ts with tv_nsec := wrap64 (ts.tv_nsec + period) }).total_ns =
      ts.total_ns + period := by
  obtain ⟨h0, h1⟩ := hn
  rw [wrap64_eq (ts.tv_nsec + period) (by omega) (by omega)]
  by_cases hc : ts.tv_nsec + period ≥ 1000000000
  · rw [if_pos hc, wrap64_eq (ts.tv_nsec + period - 1000000000) (by omega) (by omega),
      wrap64_eq (ts.tv_sec + 1) (by omega) (by omega)]
    simp only [Timespec.normalised, Timespec.total_ns]
    exact ⟨⟨by omega, by omega⟩, by omega⟩
  · rw [if_neg hc]
    simp only [Timespec.normalised, Timespec.total_ns]
    exact ⟨⟨by omega, by omega⟩, by omega⟩

/-- C12. For every normalised timespec (`0 <= tv_nsec < 10^9`) whose `tv_sec` is a 64-bit
value below the largest one, the wake-time update of each of the three periodic loops yields
a normalised timespec whose total of nanoseconds is exactly one period larger: 20 ms in
`safety_loop` (whose carry loop ends, for every bound of at least one pass), 1 ms in
`control_thread` and 1 ms in `worker`. No intermediate value leaves the 64-bit range. -/
theorem wake_time_advances_by_one_period (ts : Timespec) (hn : ts.normalised)
    (hlo : -9223372036854775808 ≤ ts.tv_sec) (hhi : ts.tv_sec < 9223372036854775807) :
    (∀ fuel : Nat, 1 ≤ fuel →
      ∃ next, safety_loop_next fuel ts = some next ∧ next.normalised ∧
        next.total_ns = ts.total_ns + safety_loop_period_ns) ∧
    ((control_thread_next ts).normalised ∧
      (control_thread_next ts).total_ns = ts.total_ns + PERIOD_NS) ∧
    ((worker_next ts).normalised ∧
      (worker_next ts).total_ns = ts.total_ns + worker_period_ns) := by
  refine ⟨?_, ?_, ?_⟩
  · intro fuel hfuel
    refine ⟨_, safety_loop_next_eq fuel ts hfuel hn hlo hhi, ?_⟩
    obtain ⟨h0, h1⟩ := hn
    by_cases hc : ts.tv_nsec + 20000000 ≥ 1000000000
    · rw [if_pos hc]
      simp only [Timespec.normalised, Timespec.total_ns, safety_loop_period_ns]
      exact ⟨⟨by omega, by omega⟩, by omega⟩
    · rw [if_neg hc]
      simp only [Timespec.normalised, Timespec.total_ns, safety_loop_period_ns]
      exact ⟨⟨by omega, by omega⟩, by omega⟩
  · exact single_carry_eq PERIOD_NS ts (by decide) (by decide) hn hlo hhi
  · exact single_carry_eq worker_period_ns ts (by decide) (by decide) hn hlo hhi

/-- C12, at a concrete input: 5 s and 999.5 ms; every update carries into the seconds. -/
theorem wake_time_advances_by_one_period_witness :
    (∃ next, safety_loop_next 1 { tv_sec := 5, tv_nsec := 999500000 } = some next ∧
      next.normalised ∧
      next.total_ns =
        ({ tv_sec := 5, tv_nsec := 999500000 } : Timespec).total_ns + safety_loop_period_ns) ∧
    (control_thread_next { tv_sec := 5, tv_nsec := 999500000 }).total_ns =
      ({ tv_sec := 5, tv_nsec := 999500000 } : Timespec).total_ns + PERIOD_NS ∧
    control_thread_next { tv_sec := 5, tv_nsec := 999500000 } =
      { tv_sec := 6, tv_nsec := 500000 } :=
  ⟨(wake_time_advances_by_one_period { tv_sec := 5, tv_nsec := 999500000 }
      ⟨by decide, by decide⟩ (by decide) (by decide)).1 1 (Nat.le_refl 1),
   (wake_time_advances_by_one_period { tv_sec := 5, tv_nsec := 999500000 }
      ⟨by decide, by decide⟩ (by decide) (by decide)).2.1.2,
   by decide⟩

end Periodic

/-! # Type-of-service byte -/

namespace Qos

/-- C13, evaluated on the code. The byte `0x2E` that both functions pass as `IP_TOS` has 11
in its upper six bits, not the Expedited Forwarding codepoint 46, and 2 (ECN-capable,
ECT(0)) in its lower two bits; `0x2E` is 46 written into the whole byte. The byte that
carries codepoint 46 in its upper six bits and the same ECN bits is `0xBA`. -/
theorem tos_byte_upper_six_bits_are_not_EF :
    dscpField create_latency_udp_tos = 11 ∧
    dscpField send_priority_udp_tos = 11 ∧
    dscpField create_latency_udp_tos ≠ DSCP_EF ∧
    dscpField send_priority_udp_tos ≠ DSCP_EF ∧
    ecnField create_latency_udp_tos = 2 ∧
    ecnField send_priority_udp_tos = 2 ∧
    create_latency_udp_tos = DSCP_EF ∧
    dscpField 0xBA = DSCP_EF ∧ ecnField 0xBA = 2 := by
  decide

end Qos
